import Mathlib

/-!
Formal model of the metaheuristic load balancer (Python sources under `src/`).

The Python code is shallowly embedded: wall-clock time (`time.time()`) becomes
an explicit rational parameter `now`, mutable object state becomes explicit
state passing (`VM` values are threaded through the operations), and numpy
aliasing (views sharing one buffer) is modelled with an explicit buffer pool
where it matters.  Floats are modelled as rationals.
-/

namespace LBM

/-- Model of `src/cloud/task.py` `Task`.  The global auto-increment counter is
abstracted: callers supply `task_id`.  `start_time` is the creation instant,
`end_time = start_time + execution_time`. -/
structure Task where
  task_id : ℕ
  cpu_demand : ℚ
  memory_demand : ℚ
  execution_time : ℚ
  start_time : ℚ
  end_time : ℚ
deriving DecidableEq, Repr

/-- Model of `Task.categorize_execution_time`. -/
def categorize_execution_time (cpu_util : ℚ) : ℚ :=
  if cpu_util < 3/10 then 1/2
  else if cpu_util < 7/10 then 3/20
  else 3/10

/-- Model of the `Task.__init__` constructor: the stored execution time is
`execution_time * categorize_execution_time cpu_demand` and
`end_time = start_time + execution_time`; `now` is the creation time
(`time.time()`). -/
def Task.make (id : ℕ) (now cpu_demand memory_demand execution_time : ℚ) : Task :=
  let e := execution_time * categorize_execution_time cpu_demand
  ⟨id, cpu_demand, memory_demand, e, now, now + e⟩

/-- Model of `Task.is_complete`: `time.time() >= self.end_time if self.end_time
else False` (a zero `end_time` is falsy in Python). -/
def Task.IsComplete (now : ℚ) (t : Task) : Prop :=
  t.end_time ≠ 0 ∧ now ≥ t.end_time

instance instDecIsComplete (now : ℚ) (t : Task) : Decidable (Task.IsComplete now t) :=
  inferInstanceAs (Decidable (_ ∧ _))

/-- Model of `src/cloud/vm.py` `VM` (the fields the operations touch;
`vm_id`/`pm_id` bookkeeping and counters that no claim mentions are dropped
except those read by the modelled methods). -/
structure VM where
  vm_id : ℕ
  cpu_core : ℚ
  cpu_speed : ℚ
  memory : ℚ
  memory_usage : ℚ
  tasks : List Task
  total_executed_time : ℚ
deriving DecidableEq, Repr

/-- `VM.max_cpu_utilization = 0.9`. -/
def max_cpu_utilization : ℚ := 9/10

/-- Model of the loop body of `VM.cpu_usage_percent`:
`for task in self.tasks: if task.is_complete(): self.tasks.remove(task)
else: cpu_usage += task.cpu_demand`.  Python's list iterator holds a cursor
that has already advanced past the current element when the body runs, so
removing the current element shifts the remainder left and the element right
after it is never visited.  (`list.remove` compares by object identity here:
`Task` defines no `__eq__` and each task object occurs at most once, so it
erases exactly the current position.)  Hence: a visited complete task is
dropped and its successor is kept unexamined; a visited incomplete task is
kept and its demand added. -/
def cpuUsageLoop (now : ℚ) : List Task → List Task × ℚ
  | [] => ([], 0)
  | [t] => if Task.IsComplete now t then ([], 0) else ([t], t.cpu_demand)
  | t :: u :: rest =>
    if Task.IsComplete now t then
      let r := cpuUsageLoop now rest
      (u :: r.1, r.2)
    else
      let r := cpuUsageLoop now (u :: rest)
      (t :: r.1, t.cpu_demand + r.2)

/-- Model of `VM.cpu_usage_percent`: returns the summed demand of the visited
non-complete tasks and the purged task list (the method mutates `self.tasks`). -/
def VM.cpu_usage_percent (now : ℚ) (vm : VM) : ℚ × VM :=
  let r := cpuUsageLoop now vm.tasks
  (r.2, { vm with tasks := r.1 })

/-- Model of `VM.free_cpu_percent`: `max_cpu_utilization - cpu_usage`, with the
purge side effect of `cpu_usage_percent`. -/
def VM.free_cpu_percent (now : ℚ) (vm : VM) : ℚ × VM :=
  let r := vm.cpu_usage_percent now
  (max_cpu_utilization - r.1, r.2)

/-- Model of `VM.free_memory`: `memory - memory_usage`. -/
def VM.free_memory (vm : VM) : ℚ :=
  vm.memory - vm.memory_usage

/-- Model of `VM.show_cpu_utilization`: the print's argument runs
`cpu_usage_percent`, whose purge pass is a state change. -/
def VM.show_cpu_utilization (now : ℚ) (vm : VM) : VM :=
  (vm.cpu_usage_percent now).2

/-- Model of `VM.allocate_task`: admit iff
`free_cpu_percent() >= task.cpu_demand and free_memory() >= task.memory_demand`;
on admission add `memory_demand` to `memory_usage`, append the task and add its
execution time to `total_executed_time`; either way `show_cpu_utilization()`
runs one more purge pass before returning. -/
def VM.allocate_task (now : ℚ) (task : Task) (vm : VM) : Bool × VM :=
  let f := vm.free_cpu_percent now
  let vm1 := f.2
  if f.1 ≥ task.cpu_demand ∧ vm1.free_memory ≥ task.memory_demand then
    let vm2 := { vm1 with
      memory_usage := vm1.memory_usage + task.memory_demand,
      tasks := vm1.tasks ++ [task],
      total_executed_time := vm1.total_executed_time + task.execution_time }
    (true, vm2.show_cpu_utilization now)
  else
    (false, vm1.show_cpu_utilization now)

/-- Model of `VM.calculate_makespan`: folds `max` over the end times of
`self.tasks`; it performs no write to `self.tasks` in the source, so it is a
pure read here. -/
def VM.calculate_makespan (vm : VM) : ℚ :=
  vm.tasks.foldl (fun m t => max m t.end_time) 0

/-- Observable of the admission-control invariant: the summed CPU demand of the
non-expired tasks currently in `vm.tasks`. -/
def VM.activeCpuSum (now : ℚ) (vm : VM) : ℚ :=
  ((vm.tasks.filter (fun t => decide (¬ Task.IsComplete now t))).map Task.cpu_demand).sum

/-- The purge pass only ever drops tasks: its output is a sublist of its
input. -/
theorem cpuUsageLoop_sublist (now : ℚ) (l : List Task) :
    (cpuUsageLoop now l).1.Sublist l := by
  induction l using cpuUsageLoop.induct now with
  | case1 => simp [cpuUsageLoop]
  | case2 t h => simp [cpuUsageLoop, h]
  | case3 t h => simp [cpuUsageLoop, h]
  | case4 t u rest h ih =>
    simp only [cpuUsageLoop, if_pos h]
    exact List.Sublist.cons t (List.Sublist.cons₂ u ih)
  | case5 t u rest h ih =>
    simp only [cpuUsageLoop, if_neg h]
    exact List.Sublist.cons₂ t ih

/-- The purge pass never drops a non-complete task: skipped or visited, an
active task survives. -/
theorem mem_cpuUsageLoop_of_not_complete (now : ℚ) (l : List Task) (t : Task)
    (ht : t ∈ l) (hn : ¬ Task.IsComplete now t) :
    t ∈ (cpuUsageLoop now l).1 := by
  induction l using cpuUsageLoop.induct now with
  | case1 => cases ht
  | case2 x h =>
    rcases List.mem_singleton.mp ht with rfl
    exact absurd h hn
  | case3 x h =>
    rcases List.mem_singleton.mp ht with rfl
    simp [cpuUsageLoop, h]
  | case4 x u rest h ih =>
    simp only [cpuUsageLoop, if_pos h]
    rcases List.mem_cons.mp ht with rfl | ht'
    · exact absurd h hn
    rcases List.mem_cons.mp ht' with rfl | ht''
    · exact List.mem_cons_self _ _
    · exact List.mem_cons_of_mem _ (ih ht'')
  | case5 x u rest h ih =>
    simp only [cpuUsageLoop, if_neg h]
    rcases List.mem_cons.mp ht with rfl | ht'
    · exact List.mem_cons_self _ _
    · exact List.mem_cons_of_mem _ (ih ht')

/-- The first complete task of the list is always removed by the purge pass
(the skip only endangers tasks that follow a removal). -/
theorem first_complete_removed (now : ℚ) (l1 l2 : List Task) (e : Task)
    (hpre : ∀ t ∈ l1, ¬ Task.IsComplete now t) (he : Task.IsComplete now e)
    (he1 : e ∉ l1) (he2 : e ∉ l2) :
    e ∉ (cpuUsageLoop now (l1 ++ e :: l2)).1 := by
  induction l1 with
  | nil =>
    cases l2 with
    | nil => simp [cpuUsageLoop, he]
    | cons u rest =>
      simp only [List.nil_append, cpuUsageLoop, if_pos he]
      intro hmem
      rcases List.mem_cons.mp hmem with rfl | hmem'
      · exact he2 (List.mem_cons_self _ _)
      · exact he2 (List.mem_cons_of_mem _
          ((cpuUsageLoop_sublist now rest).subset hmem'))
  | cons x l1' ih =>
    have hx : ¬ Task.IsComplete now x := hpre x (List.mem_cons_self _ _)
    have hne : e ≠ x := fun hexx => he1 (hexx ▸ List.mem_cons_self _ _)
    have hrest : l1' ++ e :: l2 ≠ [] := by simp
    obtain ⟨u, rest, hur⟩ := List.exists_cons_of_ne_nil hrest
    simp only [List.cons_append, hur, cpuUsageLoop, if_neg hx]
    intro hmem
    rcases List.mem_cons.mp hmem with rfl | hmem'
    · exact hne rfl
    · exact ih (fun t htl => hpre t (List.mem_cons_of_mem _ htl))
        (fun hm => he1 (List.mem_cons_of_mem _ hm)) (hur ▸ hmem')

/-- Three tasks of the C1 failing run: `Task(0.2, execution_time=1)` at time 1
(ends 1.5), `Task(0.6, execution_time=10)` at time 1 (ends 2.5),
`Task(0.35, execution_time=10)` at time 2 (ends 3.5). -/
def taskA : Task := Task.make 1 1 (1/5) 0 1

def taskB : Task := Task.make 2 1 (3/5) 0 10

def taskC : Task := Task.make 3 2 (7/20) 0 10

/-- A fresh single-core VM with ample memory. -/
def vm0 : VM := ⟨1, 1, 1, 1000, 0, [], 0⟩

/-- State after allocating `taskA` then `taskB` at time 1 and `taskC` at
time 2. -/
def c1run : Bool × VM :=
  let s1 := vm0.allocate_task 1 taskA
  let s2 := s1.2.allocate_task 1 taskB
  s2.2.allocate_task 2 taskC

end LBM

namespace LBM

theorem taskA_eq : taskA = ⟨1, 1/5, 0, 1/2, 1, 3/2⟩ := by
  norm_num [taskA, Task.make, categorize_execution_time]

theorem taskB_eq : taskB = ⟨2, 3/5, 0, 3/2, 1, 5/2⟩ := by
  norm_num [taskB, Task.make, categorize_execution_time]

theorem taskC_eq : taskC = ⟨3, 7/20, 0, 3/2, 2, 7/2⟩ := by
  norm_num [taskC, Task.make, categorize_execution_time]

theorem c1_step1 : vm0.allocate_task 1 taskA = (true, ⟨1, 1, 1, 1000, 0, [taskA], 1/2⟩) := by
  rw [taskA_eq]
  norm_num [vm0, VM.allocate_task, VM.free_cpu_percent, VM.cpu_usage_percent,
    VM.show_cpu_utilization, VM.free_memory, max_cpu_utilization,
    cpuUsageLoop, Task.IsComplete]

theorem c1_step2 :
    (VM.mk 1 1 1 1000 0 [taskA] (1/2)).allocate_task 1 taskB
      = (true, ⟨1, 1, 1, 1000, 0, [taskA, taskB], 2⟩) := by
  rw [taskA_eq, taskB_eq]
  norm_num [VM.allocate_task, VM.free_cpu_percent, VM.cpu_usage_percent,
    VM.show_cpu_utilization, VM.free_memory, max_cpu_utilization,
    cpuUsageLoop, Task.IsComplete]

theorem c1_step3 :
    (VM.mk 1 1 1 1000 0 [taskA, taskB] 2).allocate_task 2 taskC
      = (true, ⟨1, 1, 1, 1000, 0, [taskB, taskC], 7/2⟩) := by
  rw [taskA_eq, taskB_eq, taskC_eq]
  norm_num [VM.allocate_task, VM.free_cpu_percent, VM.cpu_usage_percent,
    VM.show_cpu_utilization, VM.free_memory, max_cpu_utilization,
    cpuUsageLoop, Task.IsComplete]

/-- C1: the admission-control invariant `activeCpuSum ≤ 0.9` is violated by
`allocate_task`.  At time 2 `taskA` (ends 1.5) is expired; the purge inside
`free_cpu_percent` removes it and — because `list.remove` inside the iteration
shifts the cursor — skips the still-active `taskB` (demand 0.6), so the usage
reads 0 and `taskC` (demand 0.35) is admitted.  The VM then holds non-expired
demand 0.95 > 0.9. -/
theorem c1_invariant_broken :
    c1run.1 = true ∧ c1run.2.activeCpuSum 2 = 19/20 ∧
      ¬ (c1run.2.activeCpuSum 2 ≤ max_cpu_utilization) := by
  have hrun : c1run = (true, ⟨1, 1, 1, 1000, 0, [taskB, taskC], 7/2⟩) := by
    rw [c1run, c1_step1]
    rw [show ((true, (⟨1, 1, 1, 1000, 0, [taskA], 1/2⟩ : VM)) : Bool × VM).2
        = (⟨1, 1, 1, 1000, 0, [taskA], 1/2⟩ : VM) from rfl, c1_step2]
    rw [show ((true, (⟨1, 1, 1, 1000, 0, [taskA, taskB], 2⟩ : VM)) : Bool × VM).2
        = (⟨1, 1, 1, 1000, 0, [taskA, taskB], 2⟩ : VM) from rfl, c1_step3]
  rw [hrun, taskB_eq, taskC_eq]
  norm_num [VM.activeCpuSum, max_cpu_utilization, Task.IsComplete]

theorem free_cpu_snd_tasks (vm : VM) (now : ℚ) :
    ((vm.free_cpu_percent now).2).tasks = (cpuUsageLoop now vm.tasks).1 := rfl

theorem free_cpu_snd_musage (vm : VM) (now : ℚ) :
    ((vm.free_cpu_percent now).2).memory_usage = vm.memory_usage := rfl

theorem free_cpu_snd_free_memory (vm : VM) (now : ℚ) :
    ((vm.free_cpu_percent now).2).free_memory = vm.free_memory := rfl

theorem show_musage (vm : VM) (now : ℚ) :
    (vm.show_cpu_utilization now).memory_usage = vm.memory_usage := rfl

theorem show_tasks (vm : VM) (now : ℚ) :
    (vm.show_cpu_utilization now).tasks = (cpuUsageLoop now vm.tasks).1 := rfl

/-- Two tasks created with `execution_time = 0` at time 5: both end at their
creation instant and are complete from then on. -/
def taskE1 : Task := Task.make 4 5 (1/10) 0 0

def taskE2 : Task := Task.make 5 5 (1/5) 0 0

/-- A VM holding two already-expired tasks. -/
def vmD : VM := ⟨3, 1, 1, 1000, 0, [taskE1, taskE2], 0⟩

theorem taskE1_eq : taskE1 = ⟨4, 1/10, 0, 0, 5, 5⟩ := by
  norm_num [taskE1, Task.make, categorize_execution_time]

theorem taskE2_eq : taskE2 = ⟨5, 1/5, 0, 0, 5, 5⟩ := by
  norm_num [taskE2, Task.make, categorize_execution_time]

/-- C4 counterexample: `taskE2` was created with `execution_time = 0`, is
complete, yet is still in `vm.tasks` right after a `free_cpu_percent()` read:
the purge removes `taskE1` and the cursor skips `taskE2`. -/
theorem c4_expiry_counterexample :
    ((vmD.free_cpu_percent 5).2).tasks = [taskE2] ∧
      taskE2.execution_time = 0 ∧ Task.IsComplete 5 taskE2 := by
  refine ⟨?_, ?_, ?_⟩ <;>
    norm_num [vmD, taskE1_eq, taskE2_eq, free_cpu_snd_tasks,
      cpuUsageLoop, Task.IsComplete]

/-- C4 amended: a task created with `execution_time = 0` is gone after the very
next `free_cpu_percent()` read provided every task before it in `vm.tasks` is
still active — the purge pass skips the element right after each removal, and
`calculate_makespan` performs no purge at all. -/
theorem c4_expiry_amended (vm : VM) (now now0 cpu mem : ℚ) (id : ℕ) (e : Task)
    (l1 l2 : List Task) (hmk : e = Task.make id now0 cpu mem 0) (h0 : now0 ≠ 0)
    (hnow : now0 ≤ now) (hsplit : vm.tasks = l1 ++ e :: l2)
    (hpre : ∀ t ∈ l1, ¬ Task.IsComplete now t) (he1 : e ∉ l1) (he2 : e ∉ l2) :
    e ∉ ((vm.free_cpu_percent now).2).tasks := by
  have hend : e.end_time = now0 := by subst hmk; simp [Task.make]
  have he : Task.IsComplete now e := ⟨by rw [hend]; exact h0, by rw [hend]; exact hnow⟩
  rw [free_cpu_snd_tasks, hsplit]
  exact first_complete_removed now l1 l2 e hpre he he1 he2

theorem c4_expiry_amended_witness :
    Task.make 7 5 (1/10) 0 0 ∉
      (((VM.mk 4 1 1 1000 0 [Task.make 6 5 (1/5) 0 10, Task.make 7 5 (1/10) 0 0] 0).free_cpu_percent
        5).2).tasks :=
  c4_expiry_amended _ 5 5 (1/10) 0 7 _ [Task.make 6 5 (1/5) 0 10] [] rfl
    (by norm_num) le_rfl rfl
    (by
      intro t ht
      rcases List.mem_singleton.mp ht with rfl
      norm_num [Task.make, categorize_execution_time, Task.IsComplete])
    (by norm_num [Task.make, categorize_execution_time])
    (List.not_mem_nil _)

/-- One expired task with a nonzero memory footprint to make the C6 failure
visible, and an allocation request that fails on memory. -/
def taskE : Task := Task.make 8 5 (1/10) 0 0

def taskF : Task := Task.make 9 5 (1/10) 100 1

def vmE : VM := ⟨5, 1, 1, 10, 0, [taskE], 0⟩

theorem taskE_eq : taskE = ⟨8, 1/10, 0, 0, 5, 5⟩ := by
  norm_num [taskE, Task.make, categorize_execution_time]

theorem taskF_eq : taskF = ⟨9, 1/10, 100, 1/2, 5, 11/2⟩ := by
  norm_num [taskF, Task.make, categorize_execution_time]

theorem vmE_alloc_eval : vmE.allocate_task 5 taskF = (false, ⟨5, 1, 1, 10, 0, [], 0⟩) := by
  rw [vmE, taskE_eq, taskF_eq]
  norm_num [VM.allocate_task, VM.free_cpu_percent,
    VM.cpu_usage_percent, VM.show_cpu_utilization, VM.free_memory,
    max_cpu_utilization, cpuUsageLoop, Task.IsComplete]

/-- C6 counterexample: a failing `allocate_task` is not side-effect free — the
`free_cpu_percent()` read inside it purges the expired `taskE`, so `vm.tasks`
changes even though the allocation returns `False`. -/
theorem c6_failure_side_effect :
    (vmE.allocate_task 5 taskF).1 = false ∧
      ((vmE.allocate_task 5 taskF).2).tasks = [] ∧ vmE.tasks ≠ [] := by
  rw [vmE_alloc_eval]
  refine ⟨rfl, rfl, ?_⟩
  rw [vmE]
  simp

/-- C6 amended: `allocate_task` admits iff the call-time free CPU and free
memory cover the demands; on success it adds exactly `memory_demand` to
`memory_usage` and the task is in the active set afterwards provided it is not
already complete; on failure `memory_usage` is unchanged and `vm.tasks` only
loses tasks that were complete (the lazy-expiry purge of the embedded reads). -/
theorem c6_allocate_contract (vm : VM) (task : Task) (now : ℚ) :
    ((vm.allocate_task now task).1 = true ↔
      (vm.free_cpu_percent now).1 ≥ task.cpu_demand ∧
        vm.free_memory ≥ task.memory_demand) ∧
    ((vm.allocate_task now task).1 = true →
      ((vm.allocate_task now task).2).memory_usage
          = vm.memory_usage + task.memory_demand ∧
        (¬ Task.IsComplete now task → task ∈ ((vm.allocate_task now task).2).tasks)) ∧
    ((vm.allocate_task now task).1 = false →
      ((vm.allocate_task now task).2).memory_usage = vm.memory_usage ∧
        ((vm.allocate_task now task).2).tasks.Sublist vm.tasks ∧
        ∀ t ∈ vm.tasks, t ∉ ((vm.allocate_task now task).2).tasks →
          Task.IsComplete now t) := by
  by_cases hc : (vm.free_cpu_percent now).1 ≥ task.cpu_demand ∧
      ((vm.free_cpu_percent now).2).free_memory ≥ task.memory_demand
  · have hres : vm.allocate_task now task
        = (true, ({ (vm.free_cpu_percent now).2 with
            memory_usage := ((vm.free_cpu_percent now).2).memory_usage + task.memory_demand,
            tasks := ((vm.free_cpu_percent now).2).tasks ++ [task],
            total_executed_time :=
              ((vm.free_cpu_percent now).2).total_executed_time + task.execution_time
          } : VM).show_cpu_utilization now) := by
      simp only [VM.allocate_task, if_pos hc]
    refine ⟨?_, ?_, ?_⟩
    · rw [hres]
      simpa [free_cpu_snd_free_memory] using hc
    · intro _
      rw [hres]
      constructor
      · simp [show_musage, free_cpu_snd_musage]
      · intro hnc
        rw [show_tasks]
        exact mem_cpuUsageLoop_of_not_complete now _ task
          (List.mem_append_right _ (List.mem_singleton_self task)) hnc
    · intro hfalse
      rw [hres] at hfalse
      cases hfalse
  · have hres : vm.allocate_task now task
        = (false, ((vm.free_cpu_percent now).2).show_cpu_utilization now) := by
      simp only [VM.allocate_task, if_neg hc]
    refine ⟨?_, ?_, ?_⟩
    · rw [hres]
      simp only [false_iff]
      simpa [free_cpu_snd_free_memory] using hc
    · intro htrue
      rw [hres] at htrue
      cases htrue
    · intro _
      rw [hres]
      refine ⟨by simp [show_musage, free_cpu_snd_musage], ?_, ?_⟩
      · rw [show_tasks, free_cpu_snd_tasks]
        exact (cpuUsageLoop_sublist now _).trans (cpuUsageLoop_sublist now vm.tasks)
      · intro t htv htout
        by_contra hnc
        exact htout (by
          rw [show_tasks, free_cpu_snd_tasks]
          exact mem_cpuUsageLoop_of_not_complete now _ t
            (mem_cpuUsageLoop_of_not_complete now _ t htv hnc) hnc)

theorem c6_allocate_contract_witness :
    ((vmE.allocate_task 5 taskF).2).memory_usage = vmE.memory_usage :=
  ((c6_allocate_contract vmE taskF 5).2.2 (by rw [vmE_alloc_eval])).1

/-- Python list indexing: a non-negative index must be below the length, a
negative index wraps once from the end; anything else raises `IndexError`. -/
def pyIdx (n : ℕ) (i : ℤ) : Option ℕ :=
  if 0 ≤ i ∧ i < (n : ℤ) then some i.toNat
  else if -(n : ℤ) ≤ i ∧ i < 0 then some (i + n).toNat
  else none

/-- Loop of `vm_loads[vm_idx] += task for task, vm_idx in zip(tasks, allocation)`
in the three `evaluate_fitness` methods; `none` models the `IndexError` raised
when an allocation entry is out of range for the `vm_loads` list. -/
def vmLoadsLoop (nVms : ℕ) : List (ℚ × ℤ) → List ℚ → Option (List ℚ)
  | [], loads => some loads
  | p :: rest, loads =>
    match pyIdx nVms p.2 with
    | none => none
    | some j => vmLoadsLoop nVms rest (loads.set j (loads.getD j 0 + p.1))

/-- Model of `vm_loads = [0] * len(vms)` followed by the accumulation loop. -/
def vm_loads (tasks : List ℚ) (allocation : List ℤ) (nVms : ℕ) : Option (List ℚ) :=
  vmLoadsLoop nVms (tasks.zip allocation) (List.replicate nVms 0)

/-- Model of the generator
`sum(max(0, load - vms[vm_idx].free_cpu_percent() * vms[vm_idx].cpu_core)
for vm_idx, load in enumerate(vm_loads))`: the loads are paired positionally
with the VMs (`vm_loads` has length `len(vms)`), each `free_cpu_percent()` call
purges its VM, and the updated VM states are returned. -/
def overloadLoop (now : ℚ) : List (ℚ × VM) → ℚ × List VM
  | [] => (0, [])
  | p :: rest =>
    let f := p.2.free_cpu_percent now
    let r := overloadLoop now rest
    (max 0 (p.1 - f.1 * p.2.cpu_core) + r.1, f.2 :: r.2)

/-- Fitness of one allocation: `-overload_penalty`. -/
def fitnessOne (tasks : List ℚ) (now : ℚ) (allocation : List ℤ) (vms : List VM) :
    Option (ℚ × List VM) :=
  match vm_loads tasks allocation vms.length with
  | none => none
  | some loads =>
    let r := overloadLoop now (loads.zip vms)
    some (-r.1, r.2)

/-- Body of the `for allocation in population` loop shared verbatim by
`pco.py`, `gwo.py` and `pso.py` `evaluate_fitness`. -/
def fitnessList (tasks : List ℚ) (now : ℚ) (pop : List (List ℤ)) (vms : List VM) :
    Option (List ℚ × List VM) :=
  match pop with
  | [] => some ([], vms)
  | a :: rest =>
    (fitnessOne tasks now a vms).bind fun sv =>
      (fitnessList tasks now rest sv.2).map fun rv => (sv.1 :: rv.1, rv.2)

/-- `PlantCompetitionOptimization.evaluate_fitness` (pco.py, lines 43-68). -/
def pco_evaluate_fitness := fitnessList

/-- `GrayWolfOptimization.evaluate_fitness` (gwo.py, lines 39-64): its body is
character-identical to the PCO one. -/
def gwo_evaluate_fitness := fitnessList

/-- `ParticleSwarmOptimization.evaluate_fitness` (pso.py, lines 45-70): its
body is character-identical to the PCO one. -/
def pso_evaluate_fitness := fitnessList

theorem overloadLoop_nonneg (now : ℚ) (l : List (ℚ × VM)) :
    0 ≤ (overloadLoop now l).1 := by
  induction l with
  | nil => simp [overloadLoop]
  | cons p rest ih =>
    simp only [overloadLoop]
    have := le_max_left (0 : ℚ) (p.1 - (p.2.free_cpu_percent now).1 * p.2.cpu_core)
    linarith

theorem fitnessOne_nonpos (tasks : List ℚ) (now : ℚ) (a : List ℤ) (vms : List VM)
    (sv : ℚ × List VM) (h : fitnessOne tasks now a vms = some sv) : sv.1 ≤ 0 := by
  unfold fitnessOne at h
  cases hl : vm_loads tasks a vms.length with
  | none => rw [hl] at h; cases h
  | some loads =>
    rw [hl] at h
    simp only [Option.some.injEq] at h
    subst h
    have := overloadLoop_nonneg now (loads.zip vms)
    show -(overloadLoop now (loads.zip vms)).1 ≤ 0
    linarith

theorem fitnessList_nonpos (tasks : List ℚ) (now : ℚ) (pop : List (List ℤ))
    (vms : List VM) (out : List ℚ × List VM)
    (h : fitnessList tasks now pop vms = some out) : ∀ s ∈ out.1, s ≤ 0 := by
  induction pop generalizing vms out with
  | nil =>
    simp only [fitnessList, Option.some.injEq] at h
    rw [h.symm]
    simp
  | cons a rest ih =>
    simp only [fitnessList] at h
    cases h1 : fitnessOne tasks now a vms with
    | none => rw [h1] at h; cases h
    | some sv =>
      rw [h1] at h
      simp only [Option.some_bind] at h
      cases h2 : fitnessList tasks now rest sv.2 with
      | none => rw [h2] at h; cases h
      | some rv =>
        rw [h2] at h
        simp only [Option.map_some', Option.some.injEq] at h
        rw [h.symm]
        intro s hs
        rcases List.mem_cons.mp hs with rfl | hs'
        · exact fitnessOne_nonpos tasks now a vms sv h1
        · exact ih sv.2 rv h2 s hs'

/-- Model of pco.py line 81:
`sorted(zip(fitness_scores, population), key=lambda pair: pair[0], reverse=True)`
— a stable sort on the score component, descending. -/
def pco_sorted_pairs (scores : List ℚ) (pop : List ℕ) : List (ℚ × ℕ) :=
  (scores.zip pop).mergeSort (fun a b => decide (b.1 ≤ a.1))

/-- Model of gwo.py line 92: `np.argsort(fitness_scores)[::-1]` — indices
sorted by score ascending, then reversed (numpy's tie order is unspecified for
the default sort kind; a stable ascending sort is one valid realisation). -/
def gwo_sorted_indices (scores : List ℚ) : List ℕ :=
  ((List.range scores.length).mergeSort
    (fun i j => decide (scores.getD i 0 ≤ scores.getD j 0))).reverse

/-- Model of pso.py line 81:
`max(zip(fitness_scores, population), key=lambda x: x[0])` — Python `max`
returns the first maximal element and raises on an empty sequence. -/
def py_max_by_fst {α : Type} : List (ℚ × α) → Option (ℚ × α)
  | [] => none
  | p :: rest =>
    match py_max_by_fst rest with
    | none => some p
    | some q => if q.1 > p.1 then some q else some p

theorem pco_sorted_pairs_head_max (scores : List ℚ) (pop : List ℕ)
    (p : ℚ × ℕ) (hp : p ∈ pco_sorted_pairs scores pop) :
    p.1 ≤ ((pco_sorted_pairs scores pop).headD p).1 := by
  have hs : (pco_sorted_pairs scores pop).Pairwise
      (fun a b => (fun x y : ℚ × ℕ => decide (y.1 ≤ x.1)) a b = true) := by
    apply List.sorted_mergeSort
    · intro a b c hab hbc
      simp only [decide_eq_true_eq] at hab hbc ⊢
      exact hbc.trans hab
    · intro a b
      simp only [Bool.or_eq_true, decide_eq_true_eq]
      exact le_total b.1 a.1
  cases hl : pco_sorted_pairs scores pop with
  | nil => rw [hl] at hp; cases hp
  | cons q rest =>
    rw [hl] at hp hs
    simp only [List.headD_cons]
    rcases List.mem_cons.mp hp with rfl | hp'
    · exact le_refl _
    · have := (List.pairwise_cons.mp hs).1 p hp'
      simpa using this

theorem gwo_alpha_index_max (scores : List ℚ) (s : ℚ) (hs : s ∈ scores) :
    s ≤ scores.getD ((gwo_sorted_indices scores).headD 0) 0 := by
  obtain ⟨i, hi, rfl⟩ := List.mem_iff_getElem.mp hs
  have hgd : scores[i] = scores.getD i 0 := (List.getD_eq_getElem scores 0 hi).symm
  have hperm := List.mergeSort_perm (List.range scores.length)
    (fun i j => decide (scores.getD i 0 ≤ scores.getD j 0))
  have hmem : i ∈ (List.range scores.length).mergeSort
      (fun i j => decide (scores.getD i 0 ≤ scores.getD j 0)) :=
    (hperm.mem_iff).mpr (List.mem_range.mpr hi)
  have hsorted : ((List.range scores.length).mergeSort
      (fun i j => decide (scores.getD i 0 ≤ scores.getD j 0))).Pairwise
      (fun a b => (fun i j : ℕ => decide (scores.getD i 0 ≤ scores.getD j 0)) a b = true) := by
    apply List.sorted_mergeSort
    · intro a b c hab hbc
      simp only [decide_eq_true_eq] at hab hbc ⊢
      exact hab.trans hbc
    · intro a b
      simp only [Bool.or_eq_true, decide_eq_true_eq]
      exact le_total _ _
  have hrev : (gwo_sorted_indices scores).Pairwise
      (fun a b => scores.getD b 0 ≤ scores.getD a 0) := by
    unfold gwo_sorted_indices
    rw [List.pairwise_reverse]
    exact hsorted.imp (fun {a b} hab => by simpa using hab)
  have hmemrev : i ∈ gwo_sorted_indices scores := by
    unfold gwo_sorted_indices
    rw [List.mem_reverse]
    exact hmem
  cases hl : gwo_sorted_indices scores with
  | nil => rw [hl] at hmemrev; cases hmemrev
  | cons h0 t =>
    rw [hl] at hmemrev hrev
    simp only [List.headD_cons]
    rcases List.mem_cons.mp hmemrev with rfl | hm'
    · rw [hgd]
    · rw [hgd]
      exact (List.pairwise_cons.mp hrev).1 i hm'

theorem py_max_by_fst_eq_none {α : Type} (l : List (ℚ × α)) :
    py_max_by_fst l = none ↔ l = [] := by
  cases l with
  | nil => simp [py_max_by_fst]
  | cons p rest =>
    simp only [py_max_by_fst]
    cases hr : py_max_by_fst rest with
    | none => simp
    | some q =>
      dsimp only
      split <;> simp

theorem py_max_by_fst_spec {α : Type} (l : List (ℚ × α)) (res : ℚ × α)
    (h : py_max_by_fst l = some res) : res ∈ l ∧ ∀ p ∈ l, p.1 ≤ res.1 := by
  induction l generalizing res with
  | nil => cases h
  | cons p rest ih =>
    simp only [py_max_by_fst] at h
    cases hr : py_max_by_fst rest with
    | none =>
      rw [hr] at h
      dsimp only at h
      simp only [Option.some.injEq] at h
      have hrest : rest = [] := (py_max_by_fst_eq_none rest).mp hr
      subst hrest
      refine ⟨h ▸ List.mem_cons_self _ _, ?_⟩
      intro q hq
      rcases List.mem_singleton.mp hq with rfl
      rw [h]
    | some q =>
      rw [hr] at h
      dsimp only at h
      obtain ⟨hqmem, hqmax⟩ := ih q hr
      by_cases hgt : q.1 > p.1
      · rw [if_pos hgt] at h
        simp only [Option.some.injEq] at h
        refine ⟨h ▸ List.mem_cons_of_mem _ hqmem, ?_⟩
        intro x hx
        rcases List.mem_cons.mp hx with rfl | hx'
        · rw [h.symm]; exact le_of_lt hgt
        · rw [h.symm]; exact hqmax x hx'
      · rw [if_neg hgt] at h
        simp only [Option.some.injEq] at h
        refine ⟨h ▸ List.mem_cons_self _ _, ?_⟩
        intro x hx
        rcases List.mem_cons.mp hx with rfl | hx'
        · rw [h.symm]
        · rw [h.symm]; exact (hqmax x hx').trans (not_lt.mp hgt)

/-- A fresh VM used in closed witness instances. -/
def vmW : VM := ⟨9, 1, 1, 1000, 0, [], 0⟩

/-- C10: the three variants share one fitness sign convention.  The PCO
fitness of every candidate is the negated overload penalty and is never
positive; the GWO and PSO `evaluate_fitness` bodies are the same function;
and each variant's selection step prefers larger scores: the head of PCO's
reverse-sorted pairing carries a maximal score, the head of GWO's descending
argsort indexes a maximal score, and PSO's `max(..., key=x[0])` returns an
element with maximal score. -/
theorem c10_fitness_sign_convention :
    (∀ (tasks : List ℚ) (now : ℚ) (pop : List (List ℤ)) (vms : List VM)
        (out : List ℚ × List VM), pco_evaluate_fitness tasks now pop vms = some out →
        ∀ s ∈ out.1, s ≤ 0) ∧
    gwo_evaluate_fitness = pco_evaluate_fitness ∧
    pso_evaluate_fitness = pco_evaluate_fitness ∧
    (∀ (scores : List ℚ) (pop : List ℕ) (p : ℚ × ℕ), p ∈ pco_sorted_pairs scores pop →
        p.1 ≤ ((pco_sorted_pairs scores pop).headD p).1) ∧
    (∀ (scores : List ℚ) (s : ℚ), s ∈ scores →
        s ≤ scores.getD ((gwo_sorted_indices scores).headD 0) 0) ∧
    (∀ (l : List (ℚ × ℕ)) (res : ℚ × ℕ), py_max_by_fst l = some res →
        res ∈ l ∧ ∀ p ∈ l, p.1 ≤ res.1) :=
  ⟨fun tasks now pop vms out h => fitnessList_nonpos tasks now pop vms out h,
   rfl, rfl, pco_sorted_pairs_head_max, gwo_alpha_index_max,
   fun l res h => py_max_by_fst_spec l res h⟩

theorem c10_fitness_sign_convention_witness :
    (0 : ℚ) ≤ 0 :=
  c10_fitness_sign_convention.1 [1/2] 0 [[0]] [vmW] ([0], [vmW]) (by
    norm_num [pco_evaluate_fitness, fitnessList, fitnessOne, vm_loads,
      vmLoadsLoop, pyIdx, overloadLoop, VM.free_cpu_percent,
      VM.cpu_usage_percent, vmW, cpuUsageLoop, max_cpu_utilization, max_def])
    0 (by simp)

/-- Dereference a population of numpy-array references against the buffer
pool: Python lists hold references to arrays, and `offspring = parent[:]` on a
numpy array is a view onto the same buffer, so PCO's population is modelled as
a list of buffer ids into a growing/mutating pool. -/
def materialize (pool : List (List ℤ)) (refs : List ℕ) : List (List ℤ) :=
  refs.map (fun r => pool.getD r [])

/-- Model of `PlantCompetitionOptimization.initialize_population`:
`np.random.choice(range(len(vms)), size=len(tasks))` per plant.  Entry `j` of
plant `p` draws the stream value `g (p * nTasks + j)` reduced mod `nVms`
(a uniform draw from `[0, nVms)`); `np.random.choice` raises on an empty
range, hence `none` when there is no VM. -/
def pco_initialize_population (g : ℕ → ℕ) (num_plants nTasks nVms : ℕ) :
    Option (List (List ℤ)) :=
  if nVms = 0 then none
  else some ((List.range num_plants).map fun p =>
    (List.range nTasks).map fun j => ((g (p * nTasks + j) % nVms : ℕ) : ℤ))

/-- Model of PCO's `while len(top_population) < len(population)` loop
(pco.py, lines 85-91).  `parent = random.choice(top_population)` picks a
reference from the current (growing) top list — `none` when it is empty
(`IndexError`); `offspring = parent[:]` is a numpy view, so the offspring IS
the parent's buffer and the mutation writes through it;
`np.random.randint(len(parent))` and `np.random.randint(len(vms))` raise
`ValueError` when their bound is 0, hence `none`.  `fuel` is the number of
missing plants, `k` the next random-stream index (3 draws per round). -/
def pcoRegen (nVms : ℕ) (g : ℕ → ℕ) :
    ℕ → ℕ → List (List ℤ) → List ℕ → Option (List (List ℤ) × List ℕ)
  | 0, _, pool, top => some (pool, top)
  | fuel+1, k, pool, top =>
    if top.length = 0 then none
    else
      let pref := top.getD (g k % top.length) 0
      let parent := pool.getD pref []
      if parent.length = 0 ∨ nVms = 0 then none
      else
        pcoRegen nVms g fuel (k+3)
          (pool.set pref (parent.set (g (k+1) % parent.length)
            ((g (k+2) % nVms : ℕ) : ℤ)))
          (top ++ [pref])

/-- Model of `PlantCompetitionOptimization.update_population` (pco.py,
lines 70-94): stable-sort the (score, reference) pairs descending, keep the
top half as references, regenerate the rest, and rebind the population
(`population[:] = top_population`). -/
def pco_update_population (scores : List ℚ) (pool : List (List ℤ)) (refs : List ℕ)
    (nVms : ℕ) (g : ℕ → ℕ) (k : ℕ) : Option (List (List ℤ) × List ℕ) :=
  let sortedRefs := (pco_sorted_pairs scores refs).map Prod.snd
  let top := sortedRefs.take (sortedRefs.length / 2)
  pcoRegen nVms g (refs.length - top.length) k pool top

/-- The iteration loop of `PlantCompetitionOptimization.optimize` (pco.py,
lines 107-115): evaluate the materialised population, update it, and remember
the fitness scores of the population that was evaluated (the Python
`fitness_scores` variable read by `np.argmax` after the loop holds the scores
of the population before its last update).  Zero iterations leave
`fitness_scores` unbound (`NameError` at `np.argmax`), hence `none`. -/
def pcoIterate (tasks : List ℚ) (now : ℚ) (nVms : ℕ) (g : ℕ → ℕ) :
    ℕ → ℕ → List (List ℤ) → List ℕ → List VM →
    Option (List (List ℤ) × List ℕ × List ℚ × List VM)
  | 0, _, _, _, _ => none
  | n+1, k, pool, refs, vms =>
    (pco_evaluate_fitness tasks now (materialize pool refs) vms).bind fun sv =>
      (pco_update_population sv.1 pool refs nVms g k).bind fun pr =>
        if n = 0 then some (pr.1, pr.2, sv.1, sv.2)
        else pcoIterate tasks now nVms g n (k + 3 * refs.length) pr.1 pr.2 sv.2

/-- Model of `np.argmax`: index of the first maximal element. -/
def argmaxAux : List ℚ → ℕ → ℕ → ℚ → ℕ
  | [], _, bi, _ => bi
  | x :: rest, i, bi, bv =>
    if x > bv then argmaxAux rest (i+1) i x else argmaxAux rest (i+1) bi bv

def argmaxQ : List ℚ → ℕ
  | [] => 0
  | x :: rest => argmaxAux rest 1 0 x

/-- Model of `PlantCompetitionOptimization.optimize` (pco.py, lines 97-119):
initialise, iterate, then return `population[np.argmax(fitness_scores)]`
where `fitness_scores` is stale (pre-update) while `population` is the
post-update one. -/
def pco_optimize (num_plants iterations : ℕ) (tasks : List ℚ) (vms : List VM)
    (now : ℚ) (g : ℕ → ℕ) : Option (List ℤ) :=
  (pco_initialize_population g num_plants tasks.length vms.length).bind fun pool =>
    (pcoIterate tasks now vms.length g iterations (num_plants * tasks.length) pool
      (List.range num_plants) vms).map fun s =>
      (materialize s.1 s.2.1).getD (argmaxQ s.2.2.1) []

/-- Every reference appended by the regeneration loop is drawn from the list it
started with: offspring are aliases, never fresh buffers. -/
theorem pcoRegen_mem (nVms : ℕ) (g : ℕ → ℕ) :
    ∀ (fuel k : ℕ) (pool : List (List ℤ)) (top : List ℕ)
      (out : List (List ℤ) × List ℕ),
      pcoRegen nVms g fuel k pool top = some out → ∀ r ∈ out.2, r ∈ top := by
  intro fuel
  induction fuel with
  | zero =>
    intro k pool top out h r hr
    simp only [pcoRegen, Option.some.injEq] at h
    subst h
    exact hr
  | succ n ih =>
    intro k pool top out h r hr
    simp only [pcoRegen] at h
    by_cases h0 : top.length = 0
    · rw [if_pos h0] at h; cases h
    · rw [if_neg h0] at h
      by_cases h1 : (pool.getD (top.getD (g k % top.length) 0) []).length = 0 ∨ nVms = 0
      · rw [if_pos h1] at h; cases h
      · rw [if_neg h1] at h
        have hmem := ih _ _ _ _ h r hr
        rcases List.mem_append.mp hmem with hin | hpr
        · exact hin
        · rcases List.mem_singleton.mp hpr with rfl
          have hlt : g k % top.length < top.length :=
            Nat.mod_lt _ (Nat.pos_of_ne_zero h0)
          rw [List.getD_eq_getElem _ _ hlt]
          exact List.getElem_mem hlt

/-- Random stream of the C3 run: parent pick 0, mutate position 0, new value
1; then parent pick 1 (of the grown top list), mutate position 0, new value
2. -/
def gC3 : ℕ → ℕ := fun k => [0, 0, 1, 1, 0, 2].getD k 0

/-- Four distinct plant buffers over 2 tasks and 3 VMs. -/
def poolC3 : List (List ℤ) := [[0, 0], [1, 1], [2, 2], [0, 1]]

theorem c3_sorted_eval :
    pco_sorted_pairs [3, 2, 1, 0] [0, 1, 2, 3] = [(3, 0), (2, 1), (1, 2), (0, 3)] := by
  have h : pco_sorted_pairs [3, 2, 1, 0] [0, 1, 2, 3]
      = (([3, 2, 1, 0] : List ℚ).zip ([0, 1, 2, 3] : List ℕ)).mergeSort
        (fun a b => decide (b.1 ≤ a.1)) := rfl
  rw [h, List.mergeSort_of_sorted (by decide)]
  decide

theorem c3_update_eval :
    pco_update_population [3, 2, 1, 0] poolC3 [0, 1, 2, 3] 3 gC3 0
      = some ([[1, 0], [2, 1], [2, 2], [0, 1]], [0, 1, 0, 1]) := by
  simp only [pco_update_population, c3_sorted_eval]
  decide

/-- C3: with `num_plants = 4` and one `update_population` call the new
population does NOT contain `num_plants/2 = 2` unchanged plants.  With
distinct descending scores the top half is `[[0,0], [1,1]]`, but
`offspring = parent[:]` is a numpy view, so both mutations write through into
the retained elites themselves; afterwards no plant of the new population is
element-wise equal to any prior plant. -/
theorem c3_elites_counterexample :
    pco_update_population [3, 2, 1, 0] poolC3 [0, 1, 2, 3] 3 gC3 0
        = some ([[1, 0], [2, 1], [2, 2], [0, 1]], [0, 1, 0, 1]) ∧
      ((materialize [[1, 0], [2, 1], [2, 2], [0, 1]] [0, 1, 0, 1]).filter
        (fun c => decide (c ∈ materialize poolC3 [0, 1, 2, 3]))).length = 0 ∧
      ¬ (((materialize [[1, 0], [2, 1], [2, 2], [0, 1]] [0, 1, 0, 1]).filter
        (fun c => decide (c ∈ materialize poolC3 [0, 1, 2, 3]))).length = 4 / 2) :=
  ⟨c3_update_eval, by decide, by decide⟩

/-- C3 amended: `update_population` keeps the top half as references and
regenerates the remainder as aliases of plants drawn from the growing top
list (numpy views, not clones), so every reference in the post-update
population points at one of the surviving elite buffers — mutations write
through into the elites, and fewer than `num_plants/2` plants may survive
unchanged. -/
theorem c3_aliasing_amended (scores : List ℚ) (pool : List (List ℤ)) (refs : List ℕ)
    (nVms : ℕ) (g : ℕ → ℕ) (k : ℕ) (out : List (List ℤ) × List ℕ)
    (h : pco_update_population scores pool refs nVms g k = some out) :
    ∀ r ∈ out.2, r ∈ ((pco_sorted_pairs scores refs).map Prod.snd).take
      (((pco_sorted_pairs scores refs).map Prod.snd).length / 2) := by
  unfold pco_update_population at h
  exact fun r hr => pcoRegen_mem nVms g _ k pool _ out h r hr

theorem c3_aliasing_amended_witness :
    (0 : ℕ) ∈ ((pco_sorted_pairs [3, 2, 1, 0] [0, 1, 2, 3]).map Prod.snd).take
      (((pco_sorted_pairs [3, 2, 1, 0] [0, 1, 2, 3]).map Prod.snd).length / 2) :=
  c3_aliasing_amended [3, 2, 1, 0] poolC3 [0, 1, 2, 3] 3 gC3 0
    ([[1, 0], [2, 1], [2, 2], [0, 1]], [0, 1, 0, 1]) c3_update_eval 0 (by simp)

/-- An occupied VM (one long-running task of demand 0.85, so only 0.05 CPU is
free) and an idle VM, used for the C2 run. -/
def taskX : Task := Task.make 20 1 (17/20) 0 100

def vmX : VM := ⟨6, 1, 1, 1000, 0, [taskX], 0⟩

def vmY : VM := ⟨7, 1, 1, 1000, 0, [], 0⟩

/-- Random stream of the C2 run: initial plants `[1]` and `[0]`, then the
regeneration mutates the elite `[1]` at position 0 to VM 0. -/
def gC2 : ℕ → ℕ := fun k => [1, 0, 0, 0, 0].getD k 0

theorem taskX_eq : taskX = ⟨20, 17/20, 0, 30, 1, 31⟩ := by
  norm_num [taskX, Task.make, categorize_execution_time]

theorem c2_init_eval : pco_initialize_population gC2 2 1 2 = some [[1], [0]] := by
  decide

theorem c2_eval_scores :
    pco_evaluate_fitness [1/2] 2 [[1], [0]] [vmX, vmY] = some ([0, -9/20], [vmX, vmY]) := by
  rw [vmX, vmY, taskX_eq]
  norm_num [pco_evaluate_fitness, fitnessList, fitnessOne, vm_loads,
    vmLoadsLoop, pyIdx, overloadLoop, VM.free_cpu_percent, VM.cpu_usage_percent,
    cpuUsageLoop, Task.IsComplete, max_cpu_utilization, max_def]

theorem c2_ret_fit :
    pco_evaluate_fitness [1/2] 2 [[0]] [vmX, vmY] = some ([-9/20], [vmX, vmY]) := by
  rw [vmX, vmY, taskX_eq]
  norm_num [pco_evaluate_fitness, fitnessList, fitnessOne, vm_loads,
    vmLoadsLoop, pyIdx, overloadLoop, VM.free_cpu_percent, VM.cpu_usage_percent,
    cpuUsageLoop, Task.IsComplete, max_cpu_utilization, max_def]

theorem c2_update_eval :
    pco_update_population [0, -9/20] [[1], [0]] [0, 1] 2 gC2 2
      = some ([[0], [0]], [0, 0]) := by
  have hs : pco_sorted_pairs [0, -9/20] [0, 1] = [(0, 0), (-9/20, 1)] := by
    have h0 : pco_sorted_pairs [0, -9/20] [0, 1]
        = (([0, -9/20] : List ℚ).zip ([0, 1] : List ℕ)).mergeSort
          (fun a b => decide (b.1 ≤ a.1)) := rfl
    rw [h0, List.mergeSort_of_sorted ?hp]
    · rfl
    case hp =>
      simp only [List.zip, List.zipWith, List.pairwise_cons, List.Pairwise.nil,
        List.mem_singleton, List.not_mem_nil, false_implies, implies_true,
        and_true, decide_eq_true_eq]
      intro p hp
      subst hp
      norm_num
  simp only [pco_update_population, hs]
  decide

theorem c2_iterate_eval :
    pcoIterate [1/2] 2 2 gC2 1 2 [[1], [0]] [0, 1] [vmX, vmY]
      = some ([[0], [0]], [0, 0], [0, -9/20], [vmX, vmY]) := by
  have hm : materialize [[1], [0]] [0, 1] = [[1], [0]] := by decide
  simp only [pcoIterate, hm, c2_eval_scores, Option.some_bind, c2_update_eval]
  simp

theorem c2_optimize_eval : pco_optimize 2 1 [1/2] [vmX, vmY] 2 gC2 = some [0] := by
  have ha : argmaxQ [0, -9/20] = 0 := by
    simp only [argmaxQ, argmaxAux, gt_iff_lt]
    rw [if_neg (by norm_num)]
  have h1 : pco_optimize 2 1 [1/2] [vmX, vmY] 2 gC2
      = (pcoIterate [1/2] 2 2 gC2 1 2 [[1], [0]] [0, 1] [vmX, vmY]).map
          (fun s => (materialize s.1 s.2.1).getD (argmaxQ s.2.2.1) []) := rfl
  rw [h1, c2_iterate_eval, Option.map_some']
  show some ((materialize [[0], [0]] [0, 0]).getD (argmaxQ [0, -9/20]) []) = some [0]
  rw [ha]
  decide

/-- C2: PCO's `optimize` indexes the post-update population with the argmax of
the pre-update fitness scores.  In this 2-plant, 1-iteration run the evaluated
population is `[[1], [0]]` with scores `[0, -9/20]`; the update mutates the
elite `[1]` (a view) into `[0]`, and the returned candidate `[0]` has fitness
`-9/20`, strictly worse than the evaluated candidate `[1]` (fitness 0), which
is also lost from the final population: the best-ever candidate is not
retained. -/
theorem c2_elitism_counterexample :
    pco_optimize 2 1 [1/2] [vmX, vmY] 2 gC2 = some [0] ∧
    pcoIterate [1/2] 2 2 gC2 1 2 [[1], [0]] [0, 1] [vmX, vmY]
        = some ([[0], [0]], [0, 0], [0, -9/20], [vmX, vmY]) ∧
    pco_evaluate_fitness [1/2] 2 [[1], [0]] [vmX, vmY] = some ([0, -9/20], [vmX, vmY]) ∧
    pco_evaluate_fitness [1/2] 2 [[0]] [vmX, vmY] = some ([-9/20], [vmX, vmY]) ∧
    ([1] : List ℤ) ∉ materialize [[0], [0]] [0, 0] ∧
    ¬ ((-9/20 : ℚ) ≥ 0) :=
  ⟨c2_optimize_eval, c2_iterate_eval, c2_eval_scores, c2_ret_fit, by decide,
    by norm_num⟩

/-- numpy `astype(int)` / assignment of a float into an int array: truncation
toward zero. -/
def truncToInt (q : ℚ) : ℤ :=
  if q ≥ 0 then ⌊q⌋ else -⌊-q⌋

/-- `np.clip(x, lo, hi)` on integers: `min (max x lo) hi` (when `lo > hi`
numpy returns `hi`, which this reproduces). -/
def pyClip (x lo hi : ℤ) : ℤ :=
  min (max x lo) hi

/-- Model of `GrayWolfOptimization.initialize_population` (gwo.py, lines
22-37): same `np.random.choice` draws as PCO. -/
def gwo_initialize_population (g : ℕ → ℕ) (num_wolves nTasks nVms : ℕ) :
    Option (List (List ℤ)) :=
  if nVms = 0 then none
  else some ((List.range num_wolves).map fun p =>
    (List.range nTasks).map fun j => ((g (p * nTasks + j) % nVms : ℕ) : ℤ))

/-- One wolf update (gwo.py, lines 95-116): per dimension, six fresh uniform
draws drive the attraction toward alpha, beta and delta;
`updated_wolf = np.zeros_like(wolf)` is an int array, so the assignment of
`(X1+X2+X3)/3` truncates toward zero, and the result is clipped to
`[0, len(vms)-1]`. -/
def gwoNewWolf (r : ℕ → ℚ) (k0 : ℕ) (a : ℚ) (alpha beta delta wolf : List ℤ)
    (nVms : ℕ) : List ℤ :=
  (List.range wolf.length).map fun d =>
    let wd : ℚ := ((wolf.getD d 0 : ℤ) : ℚ)
    let attract := fun (lead : List ℤ) (j : ℕ) =>
      let r1 := r (k0 + 6 * d + 2 * j)
      let r2 := r (k0 + 6 * d + 2 * j + 1)
      let A := 2 * a * r1 - a
      let C := 2 * r2
      let ld : ℚ := ((lead.getD d 0 : ℤ) : ℚ)
      ld - A * |C * ld - wd|
    pyClip (truncToInt ((attract alpha 0 + attract beta 1 + attract delta 2) / 3))
      0 ((nVms : ℤ) - 1)

/-- Model of `GrayWolfOptimization.update_population` (gwo.py, lines 66-117):
`sorted_indices[1]`/`[2]` raise `IndexError` on fewer than three wolves
(`none`); alpha, beta and delta are read from the pre-update population (the
loop rebinds `population[i]` to a fresh array, so the leaders, captured
before the loop, are unaffected). -/
def gwo_update_population (pop : List (List ℤ)) (scores : List ℚ) (nVms : ℕ)
    (r : ℕ → ℚ) (k0 : ℕ) (a : ℚ) : Option (List (List ℤ)) :=
  let idx := gwo_sorted_indices scores
  if idx.length < 3 then none
  else
    let alpha := pop.getD (idx.getD 0 0) []
    let beta := pop.getD (idx.getD 1 0) []
    let delta := pop.getD (idx.getD 2 0) []
    some ((List.range pop.length).map fun i =>
      gwoNewWolf r (k0 + 6 * i * (pop.getD i []).length) a alpha beta delta
        (pop.getD i []) nVms)

/-- The iteration loop of `GrayWolfOptimization.optimize` (gwo.py, lines
131-139): `a = a_max * (1 - iteration/max_iterations)` per iteration; the
scores of the last evaluated (pre-update) population are what `np.argmax`
reads after the loop; zero iterations leave them unbound (`none`). -/
def gwoIterate (tasks : List ℚ) (now : ℚ) (nVms : ℕ) (r : ℕ → ℚ) (aMax : ℚ)
    (maxIter : ℕ) :
    ℕ → ℕ → List (List ℤ) → List VM → Option (List (List ℤ) × List ℚ × List VM)
  | 0, _, _, _ => none
  | n+1, it, pop, vms =>
    (gwo_evaluate_fitness tasks now pop vms).bind fun sv =>
      (gwo_update_population pop sv.1 nVms r
          (it * (6 * (pop.length + 1) * (tasks.length + 1)))
          (aMax * (1 - (it : ℚ) / (maxIter : ℚ)))).bind fun pop2 =>
        if n = 0 then some (pop2, sv.1, sv.2)
        else gwoIterate tasks now nVms r aMax maxIter n (it + 1) pop2 sv.2

/-- Model of `GrayWolfOptimization.optimize` (gwo.py, lines 119-143). -/
def gwo_optimize (num_wolves iterations : ℕ) (aMax : ℚ) (tasks : List ℚ)
    (vms : List VM) (now : ℚ) (g : ℕ → ℕ) (r : ℕ → ℚ) : Option (List ℤ) :=
  (gwo_initialize_population g num_wolves tasks.length vms.length).bind fun pop =>
    (gwoIterate tasks now vms.length r aMax iterations iterations 0 pop vms).map
      fun s => s.1.getD (argmaxQ s.2.1) []

/-- PSO state: particle positions are numpy arrays held by reference.
`best_positions = population[:]` copies the list but not the arrays, and
`population[i] += ...` mutates the shared buffer while
`population[i] = np.clip(...)` rebinds to a fresh array — so positions,
best positions and the global best are ids into a buffer pool. -/
structure PsoState where
  bufs : List (List ℤ)
  popRefs : List ℕ
  bestRefs : List ℕ
  vels : List (List ℚ)
deriving Repr, DecidableEq

/-- Model of `ParticleSwarmOptimization.initialize_population` (pso.py, lines
26-44): random positions, zero velocities, `best_positions` aliasing the
population arrays. -/
def pso_initialize_population (g : ℕ → ℕ) (num_particles nTasks nVms : ℕ) :
    Option PsoState :=
  if nVms = 0 then none
  else some
    { bufs := (List.range num_particles).map fun p =>
        (List.range nTasks).map fun j => ((g (p * nTasks + j) % nVms : ℕ) : ℤ),
      popRefs := List.range num_particles,
      bestRefs := List.range num_particles,
      vels := List.replicate num_particles (List.replicate nTasks 0) }

/-- Velocity update of particle `i` (pso.py, lines 88-92): two blocks of
`len(position)` fresh uniform draws (`np.random.rand`). -/
def psoVel (inertia cog soc : ℚ) (r : ℕ → ℚ) (k : ℕ) (vel : List ℚ)
    (xi bi gb : List ℤ) : List ℚ :=
  (List.range xi.length).map fun d =>
    inertia * vel.getD d 0
      + cog * r (k + d) * (((bi.getD d 0 : ℤ) : ℚ) - ((xi.getD d 0 : ℤ) : ℚ))
      + soc * r (k + xi.length + d) * (((gb.getD d 0 : ℤ) : ℚ) - ((xi.getD d 0 : ℤ) : ℚ))

/-- First update loop of PSO (pso.py, lines 82-96), one step per particle:
`population[i] += velocities[i].astype(int)` writes through the shared buffer
(also visible through `best_positions`/`global_best` aliases), then
`np.clip` rebinds `population[i]` to a fresh clipped array appended to the
pool. -/
def psoStep (inertia cog soc : ℚ) (r : ℕ → ℚ) (k0 gbRef nVms : ℕ) (i : ℕ)
    (st : PsoState) : PsoState :=
  let pi := st.popRefs.getD i 0
  let xi := st.bufs.getD pi []
  let bi := st.bufs.getD (st.bestRefs.getD i 0) []
  let gb := st.bufs.getD gbRef []
  let v2 := psoVel inertia cog soc r (k0 + 2 * i * xi.length)
    (st.vels.getD i []) xi bi gb
  let moved := (List.range xi.length).map fun d =>
    xi.getD d 0 + truncToInt (v2.getD d 0)
  let bufs1 := st.bufs.set pi moved
  let clipped := moved.map fun x => pyClip x 0 ((nVms : ℤ) - 1)
  ⟨bufs1 ++ [clipped], st.popRefs.set i bufs1.length, st.bestRefs,
    st.vels.set i v2⟩

def psoLoop1 (inertia cog soc : ℚ) (r : ℕ → ℚ) (k0 : ℕ) (gbRef : ℕ) (nVms : ℕ) :
    List ℕ → PsoState → PsoState
  | [], st => st
  | i :: rest, st =>
    psoLoop1 inertia cog soc r k0 gbRef nVms rest
      (psoStep inertia cog soc r k0 gbRef nVms i st)

/-- Second update loop of PSO (pso.py, lines 99-101): re-evaluate each
best position (a further stateful fitness call against the live VMs) and
rebind `best_positions[i]` to the new position reference when the current
score is strictly better. -/
def psoLoop2 (tasks : List ℚ) (now : ℚ) (scores : List ℚ) :
    List ℕ → PsoState → List VM → Option (PsoState × List VM)
  | [], st, vms => some (st, vms)
  | i :: rest, st, vms =>
    (pso_evaluate_fitness tasks now [st.bufs.getD (st.bestRefs.getD i 0) []]
        vms).bind fun sv =>
      psoLoop2 tasks now scores rest
        (if scores.getD i 0 > sv.1.getD 0 0
          then { st with bestRefs := st.bestRefs.set i (st.popRefs.getD i 0) }
          else st)
        sv.2

/-- Model of `ParticleSwarmOptimization.update_population` (pso.py, lines
72-101): pick the global best by score (Python `max` raises on an empty
population), run the position/velocity loop, then the best-position loop. -/
def pso_update_population (scores : List ℚ) (st : PsoState) (nVms : ℕ)
    (inertia cog soc : ℚ) (r : ℕ → ℚ) (k0 : ℕ) (tasks : List ℚ) (now : ℚ)
    (vms : List VM) : Option (PsoState × List VM) :=
  (py_max_by_fst (scores.zip st.popRefs)).bind fun gb =>
    let st1 := psoLoop1 inertia cog soc r k0 gb.2 nVms
      (List.range st.popRefs.length) st
    psoLoop2 tasks now scores (List.range st1.popRefs.length) st1 vms

/-- The iteration loop of `ParticleSwarmOptimization.optimize` (pso.py, lines
115-123). -/
def psoIterate (tasks : List ℚ) (now : ℚ) (nVms : ℕ) (inertia cog soc : ℚ)
    (r : ℕ → ℚ) :
    ℕ → ℕ → PsoState → List VM → Option (PsoState × List ℚ × List VM)
  | 0, _, _, _ => none
  | n+1, it, st, vms =>
    (pso_evaluate_fitness tasks now (materialize st.bufs st.popRefs) vms).bind
      fun sv =>
        (pso_update_population sv.1 st nVms inertia cog soc r
            (it * (2 * (st.popRefs.length + 1) * (tasks.length + 1)))
            tasks now sv.2).bind fun su =>
          if n = 0 then some (su.1, sv.1, su.2)
          else psoIterate tasks now nVms inertia cog soc r n (it + 1) su.1 su.2

/-- Model of `ParticleSwarmOptimization.optimize` (pso.py, lines 103-127). -/
def pso_optimize (num_particles iterations : ℕ) (inertia cog soc : ℚ)
    (tasks : List ℚ) (vms : List VM) (now : ℚ) (g : ℕ → ℕ) (r : ℕ → ℚ) :
    Option (List ℤ) :=
  (pso_initialize_population g num_particles tasks.length vms.length).bind
    fun st =>
      (psoIterate tasks now vms.length inertia cog soc r iterations 0 st
          vms).map fun s =>
        (materialize s.1.bufs s.1.popRefs).getD (argmaxQ s.2.1) []

theorem fitnessList_length (tasks : List ℚ) (now : ℚ) :
    ∀ (pop : List (List ℤ)) (vms : List VM) (out : List ℚ × List VM),
      fitnessList tasks now pop vms = some out → out.1.length = pop.length := by
  intro pop
  induction pop with
  | nil =>
    intro vms out h
    simp only [fitnessList, Option.some.injEq] at h
    subst h
    rfl
  | cons a rest ih =>
    intro vms out h
    simp only [fitnessList] at h
    cases h1 : fitnessOne tasks now a vms with
    | none => rw [h1] at h; cases h
    | some sv =>
      rw [h1] at h
      simp only [Option.some_bind] at h
      cases h2 : fitnessList tasks now rest sv.2 with
      | none => rw [h2] at h; cases h
      | some rv =>
        rw [h2] at h
        simp only [Option.map_some', Option.some.injEq] at h
        subst h
        simp only [List.length_cons]
        rw [ih sv.2 rv h2]

theorem pcoRegen_length (nVms : ℕ) (g : ℕ → ℕ) :
    ∀ (fuel k : ℕ) (pool : List (List ℤ)) (top : List ℕ)
      (out : List (List ℤ) × List ℕ),
      pcoRegen nVms g fuel k pool top = some out →
      out.2.length = top.length + fuel := by
  intro fuel
  induction fuel with
  | zero =>
    intro k pool top out h
    simp only [pcoRegen, Option.some.injEq] at h
    subst h
    rfl
  | succ n ih =>
    intro k pool top out h
    simp only [pcoRegen] at h
    by_cases h0 : top.length = 0
    · rw [if_pos h0] at h; cases h
    · rw [if_neg h0] at h
      by_cases h1 : (pool.getD (top.getD (g k % top.length) 0) []).length = 0 ∨ nVms = 0
      · rw [if_pos h1] at h; cases h
      · rw [if_neg h1] at h
        have := ih _ _ _ _ h
        simp only [List.length_append, List.length_cons, List.length_nil] at this
        omega

theorem pco_update_population_length (scores : List ℚ) (pool : List (List ℤ))
    (refs : List ℕ) (nVms : ℕ) (g : ℕ → ℕ) (k : ℕ)
    (out : List (List ℤ) × List ℕ) (hs : scores.length = refs.length)
    (h : pco_update_population scores pool refs nVms g k = some out) :
    out.2.length = refs.length := by
  unfold pco_update_population at h
  have hsl : ((pco_sorted_pairs scores refs).map Prod.snd).length = refs.length := by
    rw [List.length_map]
    unfold pco_sorted_pairs
    rw [List.length_mergeSort, List.length_zip, hs, Nat.min_self]
  have := pcoRegen_length nVms g _ k pool _ out h
  rw [List.length_take, hsl] at this
  omega

theorem pcoIterate_lengths (tasks : List ℚ) (now : ℚ) (nVms : ℕ) (g : ℕ → ℕ) :
    ∀ (n k : ℕ) (pool : List (List ℤ)) (refs : List ℕ) (vms : List VM)
      (s : List (List ℤ) × List ℕ × List ℚ × List VM),
      pcoIterate tasks now nVms g n k pool refs vms = some s →
      s.2.1.length = refs.length ∧ s.2.2.1.length = refs.length := by
  intro n
  induction n with
  | zero => intro k pool refs vms s h; cases h
  | succ n ih =>
    intro k pool refs vms s h
    simp only [pcoIterate] at h
    cases h1 : pco_evaluate_fitness tasks now (materialize pool refs) vms with
    | none => rw [h1] at h; cases h
    | some sv =>
      rw [h1] at h
      simp only [Option.some_bind] at h
      cases h2 : pco_update_population sv.1 pool refs nVms g k with
      | none => rw [h2] at h; cases h
      | some pr =>
        rw [h2] at h
        simp only [Option.some_bind] at h
        have hsv : sv.1.length = refs.length := by
          have := fitnessList_length tasks now (materialize pool refs) vms sv h1
          rwa [materialize, List.length_map] at this
        have hpr : pr.2.length = refs.length :=
          pco_update_population_length sv.1 pool refs nVms g k pr hsv h2
        by_cases hn : n = 0
        · subst hn
          rw [if_pos rfl] at h
          simp only [Option.some.injEq] at h
          subst h
          exact ⟨hpr, hsv⟩
        · rw [if_neg hn] at h
          have := ih _ _ _ _ _ h
          exact ⟨hpr ▸ this.1, hpr ▸ this.2⟩

theorem argmaxAux_lt :
    ∀ (rest : List ℚ) (i bi : ℕ) (bv : ℚ), bi < i →
      argmaxAux rest i bi bv < i + rest.length := by
  intro rest
  induction rest with
  | nil =>
    intro i bi bv h
    simp only [argmaxAux, List.length_nil]
    omega
  | cons x r ih =>
    intro i bi bv h
    simp only [argmaxAux, List.length_cons]
    split
    · have := ih (i + 1) i x (Nat.lt_succ_self i)
      omega
    · have := ih (i + 1) bi bv (h.trans (Nat.lt_succ_self i))
      omega

theorem argmaxQ_lt_length (l : List ℚ) (h : l ≠ []) : argmaxQ l < l.length := by
  cases l with
  | nil => exact absurd rfl h
  | cons x rest =>
    simp only [argmaxQ, List.length_cons]
    have := argmaxAux_lt rest 1 0 x (by omega)
    omega

theorem getD_mem_of_lt {α : Type} (l : List α) (i : ℕ) (d : α)
    (h : i < l.length) : l.getD i d ∈ l := by
  rw [List.getD_eq_getElem _ _ h]
  exact List.getElem_mem h

theorem pco_initialize_population_length (g : ℕ → ℕ) (n t v : ℕ)
    (pool : List (List ℤ)) (h : pco_initialize_population g n t v = some pool) :
    pool.length = n := by
  unfold pco_initialize_population at h
  by_cases hv : v = 0
  · rw [if_pos hv] at h; cases h
  · rw [if_neg hv] at h
    simp only [Option.some.injEq] at h
    subst h
    rw [List.length_map, List.length_range]

theorem gwo_initialize_population_length (g : ℕ → ℕ) (n t v : ℕ)
    (pop : List (List ℤ)) (h : gwo_initialize_population g n t v = some pop) :
    pop.length = n := by
  unfold gwo_initialize_population at h
  by_cases hv : v = 0
  · rw [if_pos hv] at h; cases h
  · rw [if_neg hv] at h
    simp only [Option.some.injEq] at h
    subst h
    rw [List.length_map, List.length_range]

theorem pso_initialize_population_length (g : ℕ → ℕ) (n t v : ℕ)
    (st : PsoState) (h : pso_initialize_population g n t v = some st) :
    st.popRefs.length = n := by
  unfold pso_initialize_population at h
  by_cases hv : v = 0
  · rw [if_pos hv] at h; cases h
  · rw [if_neg hv] at h
    simp only [Option.some.injEq] at h
    subst h
    exact List.length_range n

theorem gwo_update_population_length (pop : List (List ℤ)) (scores : List ℚ)
    (nVms : ℕ) (r : ℕ → ℚ) (k0 : ℕ) (a : ℚ) (out : List (List ℤ))
    (h : gwo_update_population pop scores nVms r k0 a = some out) :
    out.length = pop.length := by
  unfold gwo_update_population at h
  by_cases hg : (gwo_sorted_indices scores).length < 3
  · rw [if_pos hg] at h; cases h
  · rw [if_neg hg] at h
    simp only [Option.some.injEq] at h
    subst h
    rw [List.length_map, List.length_range]

theorem gwoIterate_lengths (tasks : List ℚ) (now : ℚ) (nVms : ℕ) (r : ℕ → ℚ)
    (aMax : ℚ) (maxIter : ℕ) :
    ∀ (n it : ℕ) (pop : List (List ℤ)) (vms : List VM)
      (s : List (List ℤ) × List ℚ × List VM),
      gwoIterate tasks now nVms r aMax maxIter n it pop vms = some s →
      s.1.length = pop.length ∧ s.2.1.length = pop.length := by
  intro n
  induction n with
  | zero => intro it pop vms s h; cases h
  | succ n ih =>
    intro it pop vms s h
    simp only [gwoIterate] at h
    cases h1 : gwo_evaluate_fitness tasks now pop vms with
    | none => rw [h1] at h; cases h
    | some sv =>
      rw [h1] at h
      simp only [Option.some_bind] at h
      cases h2 : gwo_update_population pop sv.1 nVms r
          (it * (6 * (pop.length + 1) * (tasks.length + 1)))
          (aMax * (1 - (it : ℚ) / (maxIter : ℚ))) with
      | none => rw [h2] at h; cases h
      | some pop2 =>
        rw [h2] at h
        simp only [Option.some_bind] at h
        have hsv : sv.1.length = pop.length :=
          fitnessList_length tasks now pop vms sv h1
        have hp2 : pop2.length = pop.length :=
          gwo_update_population_length pop sv.1 nVms r _ _ pop2 h2
        by_cases hn : n = 0
        · subst hn
          rw [if_pos rfl] at h
          simp only [Option.some.injEq] at h
          subst h
          exact ⟨hp2, hsv⟩
        · rw [if_neg hn] at h
          have := ih _ _ _ _ h
          exact ⟨hp2 ▸ this.1, hp2 ▸ this.2⟩

theorem psoLoop1_popRefs_length (inertia cog soc : ℚ) (r : ℕ → ℚ) (k0 gbRef nVms : ℕ) :
    ∀ (is : List ℕ) (st : PsoState),
      (psoLoop1 inertia cog soc r k0 gbRef nVms is st).popRefs.length
        = st.popRefs.length := by
  intro is
  induction is with
  | nil => intro st; rfl
  | cons i rest ih =>
    intro st
    simp only [psoLoop1]
    rw [ih]
    simp [psoStep, List.length_set]

theorem psoLoop2_popRefs (tasks : List ℚ) (now : ℚ) (scores : List ℚ) :
    ∀ (is : List ℕ) (st : PsoState) (vms : List VM) (out : PsoState × List VM),
      psoLoop2 tasks now scores is st vms = some out →
      out.1.popRefs = st.popRefs ∧ out.1.bufs = st.bufs := by
  intro is
  induction is with
  | nil =>
    intro st vms out h
    simp only [psoLoop2, Option.some.injEq] at h
    subst h
    exact ⟨rfl, rfl⟩
  | cons i rest ih =>
    intro st vms out h
    simp only [psoLoop2] at h
    cases h1 : pso_evaluate_fitness tasks now
        [st.bufs.getD (st.bestRefs.getD i 0) []] vms with
    | none => rw [h1] at h; cases h
    | some sv =>
      rw [h1] at h
      simp only [Option.some_bind] at h
      by_cases hc : scores.getD i 0 > sv.1.getD 0 0
      · rw [if_pos hc] at h
        have h4 := ih _ sv.2 out h
        exact ⟨h4.1, h4.2⟩
      · rw [if_neg hc] at h
        have h4 := ih _ sv.2 out h
        exact ⟨h4.1, h4.2⟩

theorem pso_update_population_popRefs_length (scores : List ℚ) (st : PsoState)
    (nVms : ℕ) (inertia cog soc : ℚ) (r : ℕ → ℚ) (k0 : ℕ) (tasks : List ℚ)
    (now : ℚ) (vms : List VM) (out : PsoState × List VM)
    (h : pso_update_population scores st nVms inertia cog soc r k0 tasks now vms
      = some out) : out.1.popRefs.length = st.popRefs.length := by
  unfold pso_update_population at h
  cases h1 : py_max_by_fst (scores.zip st.popRefs) with
  | none => rw [h1] at h; cases h
  | some gb =>
    rw [h1] at h
    simp only [Option.some_bind] at h
    have h2 := psoLoop2_popRefs tasks now scores _ _ vms out h
    rw [h2.1, psoLoop1_popRefs_length]

theorem psoIterate_lengths (tasks : List ℚ) (now : ℚ) (nVms : ℕ)
    (inertia cog soc : ℚ) (r : ℕ → ℚ) :
    ∀ (n it : ℕ) (st : PsoState) (vms : List VM)
      (s : PsoState × List ℚ × List VM),
      psoIterate tasks now nVms inertia cog soc r n it st vms = some s →
      s.1.popRefs.length = st.popRefs.length ∧ s.2.1.length = st.popRefs.length := by
  intro n
  induction n with
  | zero => intro it st vms s h; cases h
  | succ n ih =>
    intro it st vms s h
    simp only [psoIterate] at h
    cases h1 : pso_evaluate_fitness tasks now (materialize st.bufs st.popRefs) vms with
    | none => rw [h1] at h; cases h
    | some sv =>
      rw [h1] at h
      simp only [Option.some_bind] at h
      cases h2 : pso_update_population sv.1 st nVms inertia cog soc r
          (it * (2 * (st.popRefs.length + 1) * (tasks.length + 1))) tasks now sv.2 with
      | none => rw [h2] at h; cases h
      | some su =>
        rw [h2] at h
        simp only [Option.some_bind] at h
        have hsv : sv.1.length = st.popRefs.length := by
          have h3 := fitnessList_length tasks now (materialize st.bufs st.popRefs) vms sv h1
          rwa [materialize, List.length_map] at h3
        have hsu : su.1.popRefs.length = st.popRefs.length :=
          pso_update_population_popRefs_length sv.1 st nVms inertia cog soc r _
            tasks now sv.2 su h2
        by_cases hn : n = 0
        · subst hn
          rw [if_pos rfl] at h
          simp only [Option.some.injEq] at h
          subst h
          exact ⟨hsu, hsv⟩
        · rw [if_neg hn] at h
          have := ih _ _ _ _ h
          exact ⟨hsu ▸ this.1, hsu ▸ this.2⟩

/-- C2 amended: none of the three `optimize` methods retains the best-ever
candidate.  Each indexes the post-update population with
`np.argmax(fitness_scores)` where the scores belong to the population before
its last update, so all that holds is: the returned candidate is a member of
the final (post-update) population, at the index where the stale scores were
maximal — it can be worse than other members and the best-ever candidate can
be lost. -/
theorem c2_stale_argmax_amended :
    (∀ (num_plants iterations : ℕ) (tasks : List ℚ) (vms : List VM) (now : ℚ)
        (g : ℕ → ℕ) (best : List ℤ), 1 ≤ num_plants →
        pco_optimize num_plants iterations tasks vms now g = some best →
        ∃ pool s,
          pco_initialize_population g num_plants tasks.length vms.length = some pool ∧
          pcoIterate tasks now vms.length g iterations (num_plants * tasks.length)
              pool (List.range num_plants) vms = some s ∧
          best ∈ materialize s.1 s.2.1) ∧
    (∀ (num_wolves iterations : ℕ) (aMax : ℚ) (tasks : List ℚ) (vms : List VM)
        (now : ℚ) (g : ℕ → ℕ) (r : ℕ → ℚ) (best : List ℤ), 1 ≤ num_wolves →
        gwo_optimize num_wolves iterations aMax tasks vms now g r = some best →
        ∃ pop s,
          gwo_initialize_population g num_wolves tasks.length vms.length = some pop ∧
          gwoIterate tasks now vms.length r aMax iterations iterations 0 pop vms
              = some s ∧
          best ∈ s.1) ∧
    (∀ (num_particles iterations : ℕ) (inertia cog soc : ℚ) (tasks : List ℚ)
        (vms : List VM) (now : ℚ) (g : ℕ → ℕ) (r : ℕ → ℚ) (best : List ℤ),
        1 ≤ num_particles →
        pso_optimize num_particles iterations inertia cog soc tasks vms now g r
            = some best →
        ∃ st s,
          pso_initialize_population g num_particles tasks.length vms.length
              = some st ∧
          psoIterate tasks now vms.length inertia cog soc r iterations 0 st vms
              = some s ∧
          best ∈ materialize s.1.bufs s.1.popRefs) := by
  refine ⟨?_, ?_, ?_⟩
  · intro np it tasks vms now g best hnp h
    unfold pco_optimize at h
    cases hinit : pco_initialize_population g np tasks.length vms.length with
    | none => rw [hinit] at h; cases h
    | some pool =>
      rw [hinit] at h
      simp only [Option.some_bind] at h
      cases hiter : pcoIterate tasks now vms.length g it (np * tasks.length) pool
          (List.range np) vms with
      | none => rw [hiter] at h; cases h
      | some s =>
        rw [hiter] at h
        simp only [Option.map_some', Option.some.injEq] at h
        refine ⟨pool, s, rfl, hiter, ?_⟩
        have hl := pcoIterate_lengths tasks now vms.length g _ _ pool _ vms s hiter
        rw [List.length_range] at hl
        have hne : s.2.2.1 ≠ [] := by
          intro hnil
          rw [hnil] at hl
          simp at hl
          omega
        have harg : argmaxQ s.2.2.1 < (materialize s.1 s.2.1).length := by
          rw [materialize, List.length_map, hl.1]
          have := argmaxQ_lt_length s.2.2.1 hne
          omega
        rw [h.symm]
        exact getD_mem_of_lt _ _ _ harg
  · intro nw it aMax tasks vms now g r best hnw h
    unfold gwo_optimize at h
    cases hinit : gwo_initialize_population g nw tasks.length vms.length with
    | none => rw [hinit] at h; cases h
    | some pop =>
      rw [hinit] at h
      simp only [Option.some_bind] at h
      cases hiter : gwoIterate tasks now vms.length r aMax it it 0 pop vms with
      | none => rw [hiter] at h; cases h
      | some s =>
        rw [hiter] at h
        simp only [Option.map_some', Option.some.injEq] at h
        refine ⟨pop, s, rfl, hiter, ?_⟩
        have hpl := gwo_initialize_population_length g nw tasks.length vms.length
          pop hinit
        have hl := gwoIterate_lengths tasks now vms.length r aMax it _ _ pop vms s hiter
        have hne : s.2.1 ≠ [] := by
          intro hnil
          rw [hnil] at hl
          simp at hl
          omega
        have harg : argmaxQ s.2.1 < s.1.length := by
          rw [hl.1, hpl]
          have := argmaxQ_lt_length s.2.1 hne
          rw [hl.2, hpl] at this
          omega
        rw [h.symm]
        exact getD_mem_of_lt _ _ _ harg
  · intro np it inertia cog soc tasks vms now g r best hnp h
    unfold pso_optimize at h
    cases hinit : pso_initialize_population g np tasks.length vms.length with
    | none => rw [hinit] at h; cases h
    | some st =>
      rw [hinit] at h
      simp only [Option.some_bind] at h
      cases hiter : psoIterate tasks now vms.length inertia cog soc r it 0 st vms with
      | none => rw [hiter] at h; cases h
      | some s =>
        rw [hiter] at h
        simp only [Option.map_some', Option.some.injEq] at h
        refine ⟨st, s, rfl, hiter, ?_⟩
        have hpl := pso_initialize_population_length g np tasks.length vms.length
          st hinit
        have hl := psoIterate_lengths tasks now vms.length inertia cog soc r _ _
          st vms s hiter
        have hne : s.2.1 ≠ [] := by
          intro hnil
          rw [hnil] at hl
          simp at hl
          omega
        have harg : argmaxQ s.2.1 < (materialize s.1.bufs s.1.popRefs).length := by
          rw [materialize, List.length_map, hl.1, hpl]
          have := argmaxQ_lt_length s.2.1 hne
          rw [hl.2, hpl] at this
          omega
        rw [h.symm]
        exact getD_mem_of_lt _ _ _ harg

theorem getD_set_self {α : Type} (l : List α) (i : ℕ) (v d : α)
    (h : i < l.length) : (l.set i v).getD i d = v := by
  rw [List.getD_eq_getElem?_getD, List.getElem?_set_self h]
  rfl

theorem getD_set_ne {α : Type} (l : List α) (i j : ℕ) (v d : α) (h : i ≠ j) :
    (l.set i v).getD j d = l.getD j d := by
  rw [List.getD_eq_getElem?_getD, List.getElem?_set_ne h,
    List.getD_eq_getElem?_getD]

theorem getD_concat_self {α : Type} (l : List α) (x d : α) :
    (l ++ [x]).getD l.length d = x := by
  rw [List.getD_eq_getElem?_getD, List.getElem?_append_right (le_refl _)]
  simp

theorem getD_mem_or_default {α : Type} (l : List α) (i : ℕ) (d : α) :
    l.getD i d ∈ l ∨ l.getD i d = d := by
  by_cases h : i < l.length
  · exact Or.inl (getD_mem_of_lt l i d h)
  · right
    rw [List.getD_eq_getElem?_getD, List.getElem?_eq_none (by omega)]
    rfl

theorem pyClip_bounds (x : ℤ) (n : ℕ) (hn : 1 ≤ n) :
    0 ≤ pyClip x 0 ((n : ℤ) - 1) ∧ pyClip x 0 ((n : ℤ) - 1) < (n : ℤ) := by
  unfold pyClip
  constructor <;> omega

theorem pco_initialize_population_bounds (g : ℕ → ℕ) (np nt nv : ℕ)
    (pool : List (List ℤ)) (h : pco_initialize_population g np nt nv = some pool) :
    ∀ c ∈ pool, ∀ x ∈ c, 0 ≤ x ∧ x < (nv : ℤ) := by
  unfold pco_initialize_population at h
  by_cases hv : nv = 0
  · rw [if_pos hv] at h; cases h
  · rw [if_neg hv] at h
    simp only [Option.some.injEq] at h
    subst h
    intro c hc x hx
    simp only [List.mem_map] at hc
    obtain ⟨p, _, rfl⟩ := hc
    simp only [List.mem_map] at hx
    obtain ⟨j, _, rfl⟩ := hx
    exact ⟨Int.natCast_nonneg _,
      Int.ofNat_lt.mpr (Nat.mod_lt _ (Nat.pos_of_ne_zero hv))⟩

theorem gwo_initialize_population_bounds (g : ℕ → ℕ) (nw nt nv : ℕ)
    (pop : List (List ℤ)) (h : gwo_initialize_population g nw nt nv = some pop) :
    ∀ c ∈ pop, ∀ x ∈ c, 0 ≤ x ∧ x < (nv : ℤ) := by
  unfold gwo_initialize_population at h
  by_cases hv : nv = 0
  · rw [if_pos hv] at h; cases h
  · rw [if_neg hv] at h
    simp only [Option.some.injEq] at h
    subst h
    intro c hc x hx
    simp only [List.mem_map] at hc
    obtain ⟨p, _, rfl⟩ := hc
    simp only [List.mem_map] at hx
    obtain ⟨j, _, rfl⟩ := hx
    exact ⟨Int.natCast_nonneg _,
      Int.ofNat_lt.mpr (Nat.mod_lt _ (Nat.pos_of_ne_zero hv))⟩

theorem pso_initialize_population_bounds (g : ℕ → ℕ) (np nt nv : ℕ)
    (st : PsoState) (h : pso_initialize_population g np nt nv = some st) :
    ∀ c ∈ st.bufs, ∀ x ∈ c, 0 ≤ x ∧ x < (nv : ℤ) := by
  unfold pso_initialize_population at h
  by_cases hv : nv = 0
  · rw [if_pos hv] at h; cases h
  · rw [if_neg hv] at h
    simp only [Option.some.injEq] at h
    subst h
    intro c hc x hx
    simp only [List.mem_map] at hc
    obtain ⟨p, _, rfl⟩ := hc
    simp only [List.mem_map] at hx
    obtain ⟨j, _, rfl⟩ := hx
    exact ⟨Int.natCast_nonneg _,
      Int.ofNat_lt.mpr (Nat.mod_lt _ (Nat.pos_of_ne_zero hv))⟩

theorem gwo_update_population_bounds (pop : List (List ℤ)) (scores : List ℚ)
    (nVms : ℕ) (r : ℕ → ℚ) (k0 : ℕ) (a : ℚ) (out : List (List ℤ))
    (hn : 1 ≤ nVms) (h : gwo_update_population pop scores nVms r k0 a = some out) :
    ∀ c ∈ out, ∀ x ∈ c, 0 ≤ x ∧ x < (nVms : ℤ) := by
  unfold gwo_update_population at h
  by_cases hg : (gwo_sorted_indices scores).length < 3
  · rw [if_pos hg] at h; cases h
  · rw [if_neg hg] at h
    simp only [Option.some.injEq] at h
    subst h
    intro c hc x hx
    simp only [List.mem_map] at hc
    obtain ⟨i, _, rfl⟩ := hc
    simp only [gwoNewWolf, List.mem_map] at hx
    obtain ⟨d, _, rfl⟩ := hx
    exact pyClip_bounds _ nVms hn

theorem pcoRegen_pool_bounds (nVms : ℕ) (g : ℕ → ℕ) :
    ∀ (fuel k : ℕ) (pool : List (List ℤ)) (top : List ℕ)
      (out : List (List ℤ) × List ℕ),
      (∀ c ∈ pool, ∀ x ∈ c, 0 ≤ x ∧ x < (nVms : ℤ)) →
      pcoRegen nVms g fuel k pool top = some out →
      ∀ c ∈ out.1, ∀ x ∈ c, 0 ≤ x ∧ x < (nVms : ℤ) := by
  intro fuel
  induction fuel with
  | zero =>
    intro k pool top out hin h
    simp only [pcoRegen, Option.some.injEq] at h
    subst h
    exact hin
  | succ n ih =>
    intro k pool top out hin h
    simp only [pcoRegen] at h
    by_cases h0 : top.length = 0
    · rw [if_pos h0] at h; cases h
    · rw [if_neg h0] at h
      by_cases h1 : (pool.getD (top.getD (g k % top.length) 0) []).length = 0 ∨ nVms = 0
      · rw [if_pos h1] at h; cases h
      · rw [if_neg h1] at h
        push_neg at h1
        refine ih _ _ _ out ?_ h
        intro c hc x hx
        rcases List.mem_or_eq_of_mem_set hc with hcm | rfl
        · exact hin c hcm x hx
        · rcases List.mem_or_eq_of_mem_set hx with hxm | rfl
          · rcases getD_mem_or_default pool (top.getD (g k % top.length) 0) []
                with hpm | hpe
            · exact hin _ hpm x hxm
            · rw [hpe] at hxm; cases hxm
          · exact ⟨Int.natCast_nonneg _,
              Int.ofNat_lt.mpr (Nat.mod_lt _ (Nat.pos_of_ne_zero h1.2))⟩

theorem pco_update_population_bounds (scores : List ℚ) (pool : List (List ℤ))
    (refs : List ℕ) (nVms : ℕ) (g : ℕ → ℕ) (k : ℕ)
    (out : List (List ℤ) × List ℕ)
    (hin : ∀ c ∈ pool, ∀ x ∈ c, 0 ≤ x ∧ x < (nVms : ℤ))
    (h : pco_update_population scores pool refs nVms g k = some out) :
    ∀ c ∈ materialize out.1 out.2, ∀ x ∈ c, 0 ≤ x ∧ x < (nVms : ℤ) := by
  unfold pco_update_population at h
  have hpool := pcoRegen_pool_bounds nVms g _ k pool _ out hin h
  intro c hc x hx
  simp only [materialize, List.mem_map] at hc
  obtain ⟨rf, _, rfl⟩ := hc
  rcases getD_mem_or_default out.1 rf [] with hm | he
  · exact hpool _ hm x hx
  · rw [he] at hx; cases hx

theorem psoStep_popRefs_length (inertia cog soc : ℚ) (r : ℕ → ℚ)
    (k0 gbRef nVms i : ℕ) (st : PsoState) :
    (psoStep inertia cog soc r k0 gbRef nVms i st).popRefs.length
      = st.popRefs.length := by
  simp [psoStep, List.length_set]

theorem psoStep_bufs_length (inertia cog soc : ℚ) (r : ℕ → ℚ)
    (k0 gbRef nVms i : ℕ) (st : PsoState) :
    (psoStep inertia cog soc r k0 gbRef nVms i st).bufs.length
      = st.bufs.length + 1 := by
  simp [psoStep, List.length_append, List.length_set]

theorem psoStep_popRefs_ne (inertia cog soc : ℚ) (r : ℕ → ℚ)
    (k0 gbRef nVms i j : ℕ) (st : PsoState) (h : i ≠ j) :
    (psoStep inertia cog soc r k0 gbRef nVms i st).popRefs.getD j 0
      = st.popRefs.getD j 0 := by
  simp only [psoStep]
  exact getD_set_ne _ i j _ _ h

theorem psoStep_popRefs_self (inertia cog soc : ℚ) (r : ℕ → ℚ)
    (k0 gbRef nVms i : ℕ) (st : PsoState) (h : i < st.popRefs.length) :
    (psoStep inertia cog soc r k0 gbRef nVms i st).popRefs.getD i 0
      = st.bufs.length := by
  simp only [psoStep]
  rw [getD_set_self _ _ _ _ h, List.length_set]

theorem psoStep_bufs_stable (inertia cog soc : ℚ) (r : ℕ → ℚ)
    (k0 gbRef nVms i : ℕ) (st : PsoState) (b : ℕ)
    (hb : st.popRefs.getD i 0 ≠ b) (hlt : b < st.bufs.length) :
    (psoStep inertia cog soc r k0 gbRef nVms i st).bufs.getD b []
      = st.bufs.getD b [] := by
  simp only [psoStep]
  rw [List.getD_append _ _ _ b (by rw [List.length_set]; exact hlt),
    getD_set_ne _ _ _ _ _ hb]

theorem psoStep_new_buf_bounds (inertia cog soc : ℚ) (r : ℕ → ℚ)
    (k0 gbRef nVms i : ℕ) (st : PsoState) (hn : 1 ≤ nVms) :
    ∀ x ∈ (psoStep inertia cog soc r k0 gbRef nVms i st).bufs.getD
      st.bufs.length [], 0 ≤ x ∧ x < (nVms : ℤ) := by
  simp only [psoStep]
  intro x hx
  rw [show st.bufs.length
      = (st.bufs.set (st.popRefs.getD i 0)
        ((List.range (st.bufs.getD (st.popRefs.getD i 0) []).length).map fun d =>
          (st.bufs.getD (st.popRefs.getD i 0) []).getD d 0 +
            truncToInt ((psoVel inertia cog soc r
              (k0 + 2 * i * (st.bufs.getD (st.popRefs.getD i 0) []).length)
              (st.vels.getD i []) (st.bufs.getD (st.popRefs.getD i 0) [])
              (st.bufs.getD (st.bestRefs.getD i 0) [])
              (st.bufs.getD gbRef [])).getD d 0))).length
      from (List.length_set _ _ _).symm, getD_concat_self] at hx
  simp only [List.mem_map] at hx
  obtain ⟨y, _, rfl⟩ := hx
  exact pyClip_bounds y nVms hn

/-- After the first PSO update loop, every particle position references a
freshly clipped buffer: positions rebound during the loop are never written
again (mutations go through the old, pre-loop buffer ids). -/
theorem psoLoop1_spec (inertia cog soc : ℚ) (r : ℕ → ℚ) (k0 gbRef nVms L : ℕ)
    (hn : 1 ≤ nVms) :
    ∀ (is : List ℕ) (st : PsoState),
      is.Nodup →
      (∀ i ∈ is, i < st.popRefs.length) →
      (∀ i ∈ is, st.popRefs.getD i 0 < L) →
      L ≤ st.bufs.length →
      (∀ b, L ≤ b → b < st.bufs.length →
        (psoLoop1 inertia cog soc r k0 gbRef nVms is st).bufs.getD b []
          = st.bufs.getD b []) ∧
      (∀ i, i ∉ is →
        (psoLoop1 inertia cog soc r k0 gbRef nVms is st).popRefs.getD i 0
          = st.popRefs.getD i 0) ∧
      (∀ i ∈ is,
        ∀ x ∈ (psoLoop1 inertia cog soc r k0 gbRef nVms is st).bufs.getD
          ((psoLoop1 inertia cog soc r k0 gbRef nVms is st).popRefs.getD i 0) [],
          0 ≤ x ∧ x < (nVms : ℤ)) := by
  intro is
  induction is with
  | nil =>
    intro st _ _ _ _
    exact ⟨fun b _ _ => rfl, fun i _ => rfl,
      fun i hi => absurd hi (List.not_mem_nil i)⟩
  | cons i rest ih =>
    intro st hnd hidx hlt hL
    obtain ⟨hni, hndr⟩ := List.nodup_cons.mp hnd
    have hii : i < st.popRefs.length := hidx i (List.mem_cons_self _ _)
    have hpi : st.popRefs.getD i 0 < L := hlt i (List.mem_cons_self _ _)
    have hstep : psoLoop1 inertia cog soc r k0 gbRef nVms (i :: rest) st
        = psoLoop1 inertia cog soc r k0 gbRef nVms rest
          (psoStep inertia cog soc r k0 gbRef nVms i st) := rfl
    set st1 := psoStep inertia cog soc r k0 gbRef nVms i st with hst1
    have hrec := ih st1 hndr
      (fun j hj => by
        rw [psoStep_popRefs_length]
        exact hidx j (List.mem_cons_of_mem _ hj))
      (fun j hj => by
        rw [psoStep_popRefs_ne inertia cog soc r k0 gbRef nVms i j st
          (fun hij => hni (hij ▸ hj))]
        exact hlt j (List.mem_cons_of_mem _ hj))
      (by rw [psoStep_bufs_length]; omega)
    refine ⟨?_, ?_, ?_⟩
    · intro b hLb hblt
      rw [hstep, hrec.1 b hLb (by rw [psoStep_bufs_length]; omega),
        psoStep_bufs_stable inertia cog soc r k0 gbRef nVms i st b (by omega) hblt]
    · intro j hj
      have hji : j ≠ i := fun hji => hj (hji ▸ List.mem_cons_self _ _)
      have hjr : j ∉ rest := fun hjr => hj (List.mem_cons_of_mem _ hjr)
      rw [hstep, hrec.2.1 j hjr,
        psoStep_popRefs_ne inertia cog soc r k0 gbRef nVms i j st
          (fun hij => hji hij.symm)]
    · intro j hj
      rcases List.mem_cons.mp hj with rfl | hjr
      · have hid : (psoLoop1 inertia cog soc r k0 gbRef nVms rest st1).popRefs.getD
            j 0 = st.bufs.length := by
          rw [hrec.2.1 j hni,
            psoStep_popRefs_self inertia cog soc r k0 gbRef nVms j st hii]
        rw [hstep, hid]
        intro x hx
        rw [hrec.1 st.bufs.length hL (by rw [psoStep_bufs_length]; omega)] at hx
        exact psoStep_new_buf_bounds inertia cog soc r k0 gbRef nVms j st hn x hx
      · intro x hx
        rw [hstep] at hx
        exact hrec.2.2 j hjr x hx

theorem pso_update_population_bounds (scores : List ℚ) (st : PsoState)
    (nVms : ℕ) (inertia cog soc : ℚ) (r : ℕ → ℚ) (k0 : ℕ) (tasks : List ℚ)
    (now : ℚ) (vms : List VM) (out : PsoState × List VM) (hn : 1 ≤ nVms)
    (hval : ∀ i, i < st.popRefs.length → st.popRefs.getD i 0 < st.bufs.length)
    (h : pso_update_population scores st nVms inertia cog soc r k0 tasks now vms
      = some out) :
    ∀ c ∈ materialize out.1.bufs out.1.popRefs, ∀ x ∈ c, 0 ≤ x ∧ x < (nVms : ℤ) := by
  unfold pso_update_population at h
  cases hgb : py_max_by_fst (scores.zip st.popRefs) with
  | none => rw [hgb] at h; cases h
  | some gb =>
    rw [hgb] at h
    simp only [Option.some_bind] at h
    have hspec := psoLoop1_spec inertia cog soc r k0 gb.2 nVms st.bufs.length hn
      (List.range st.popRefs.length) st (List.nodup_range _)
      (fun i hi => List.mem_range.mp hi)
      (fun i hi => hval i (List.mem_range.mp hi)) (le_refl _)
    have hl2 := psoLoop2_popRefs tasks now scores _ _ vms out h
    intro c hc x hx
    rw [hl2.1, hl2.2] at hc
    simp only [materialize, List.mem_map] at hc
    obtain ⟨rf, hrf, rfl⟩ := hc
    obtain ⟨i, hi, hieq⟩ := List.mem_iff_getElem.mp hrf
    have hlen := psoLoop1_popRefs_length inertia cog soc r k0 gb.2 nVms
      (List.range st.popRefs.length) st
    have hi' : i < st.popRefs.length := by rw [hlen] at hi; exact hi
    have hgd : (psoLoop1 inertia cog soc r k0 gb.2 nVms
        (List.range st.popRefs.length) st).popRefs.getD i 0 = rf := by
      rw [List.getD_eq_getElem _ _ hi]
      exact hieq
    refine hspec.2.2 i (List.mem_range.mpr hi') x ?_
    rw [hgd]
    exact hx

theorem c2_stale_argmax_amended_witness :
    ([0] : List ℤ) ∈ materialize [[0], [0]] [0, 0] := by
  obtain ⟨pool, st, hinit, hiter, hmem⟩ := c2_stale_argmax_amended.1 2 1 [1/2]
    [vmX, vmY] 2 gC2 [0] (by omega) c2_optimize_eval
  have hinit2 : pco_initialize_population gC2 2 1 2 = some pool := hinit
  rw [c2_init_eval] at hinit2
  injection hinit2 with hpool
  subst hpool
  have hiter2 : pcoIterate [1/2] 2 2 gC2 1 2 [[1], [0]] [0, 1] [vmX, vmY]
      = some st := hiter
  rw [c2_iterate_eval] at hiter2
  injection hiter2 with hst
  subst hst
  exact hmem

/-- C8: all VM indices produced by the population constructors and updaters
of the three variants stay inside `[0, len(vms) - 1]`.  Initialisation draws
`mod nVms`; GWO and PSO clip every produced position; PCO mutates with an
in-range draw and otherwise aliases existing in-range buffers (for PCO the
pre-update pool must itself be in range, as it is along every `optimize`
run; for PSO the particle references must point into the buffer pool, as
they do along every run). -/
theorem c8_vm_index_bounds :
    (∀ (g : ℕ → ℕ) (np nt nv : ℕ) (pool : List (List ℤ)),
        pco_initialize_population g np nt nv = some pool →
        ∀ c ∈ pool, ∀ x ∈ c, 0 ≤ x ∧ x < (nv : ℤ)) ∧
    (∀ (g : ℕ → ℕ) (nw nt nv : ℕ) (pop : List (List ℤ)),
        gwo_initialize_population g nw nt nv = some pop →
        ∀ c ∈ pop, ∀ x ∈ c, 0 ≤ x ∧ x < (nv : ℤ)) ∧
    (∀ (g : ℕ → ℕ) (np nt nv : ℕ) (st : PsoState),
        pso_initialize_population g np nt nv = some st →
        ∀ c ∈ st.bufs, ∀ x ∈ c, 0 ≤ x ∧ x < (nv : ℤ)) ∧
    (∀ (scores : List ℚ) (pool : List (List ℤ)) (refs : List ℕ) (nVms : ℕ)
        (g : ℕ → ℕ) (k : ℕ) (out : List (List ℤ) × List ℕ),
        (∀ c ∈ pool, ∀ x ∈ c, 0 ≤ x ∧ x < (nVms : ℤ)) →
        pco_update_population scores pool refs nVms g k = some out →
        ∀ c ∈ materialize out.1 out.2, ∀ x ∈ c, 0 ≤ x ∧ x < (nVms : ℤ)) ∧
    (∀ (pop : List (List ℤ)) (scores : List ℚ) (nVms : ℕ) (r : ℕ → ℚ)
        (k0 : ℕ) (a : ℚ) (out : List (List ℤ)), 1 ≤ nVms →
        gwo_update_population pop scores nVms r k0 a = some out →
        ∀ c ∈ out, ∀ x ∈ c, 0 ≤ x ∧ x < (nVms : ℤ)) ∧
    (∀ (scores : List ℚ) (st : PsoState) (nVms : ℕ) (inertia cog soc : ℚ)
        (r : ℕ → ℚ) (k0 : ℕ) (tasks : List ℚ) (now : ℚ) (vms : List VM)
        (out : PsoState × List VM), 1 ≤ nVms →
        (∀ i, i < st.popRefs.length → st.popRefs.getD i 0 < st.bufs.length) →
        pso_update_population scores st nVms inertia cog soc r k0 tasks now vms
            = some out →
        ∀ c ∈ materialize out.1.bufs out.1.popRefs, ∀ x ∈ c,
          0 ≤ x ∧ x < (nVms : ℤ)) :=
  ⟨pco_initialize_population_bounds, gwo_initialize_population_bounds,
   pso_initialize_population_bounds,
   fun scores pool refs nVms g k out hin h =>
     pco_update_population_bounds scores pool refs nVms g k out hin h,
   fun pop scores nVms r k0 a out hn h =>
     gwo_update_population_bounds pop scores nVms r k0 a out hn h,
   fun scores st nVms inertia cog soc r k0 tasks now vms out hn hval h =>
     pso_update_population_bounds scores st nVms inertia cog soc r k0 tasks
       now vms out hn hval h⟩

theorem c8_vm_index_bounds_witness :
    (0 : ℤ) ≤ 1 ∧ (1 : ℤ) < ((2 : ℕ) : ℤ) :=
  c8_vm_index_bounds.1 gC2 2 1 2 [[1], [0]] c2_init_eval [1] (by simp) 1 (by simp)

theorem fitnessList_nil_tasks (now : ℚ) :
    ∀ (pop : List (List ℤ)) (vms : List VM),
      ∃ out, fitnessList [] now pop vms = some out := by
  intro pop
  induction pop with
  | nil => intro vms; exact ⟨([], vms), rfl⟩
  | cons a rest ih =>
    intro vms
    obtain ⟨out, hout⟩ := ih (overloadLoop now
      ((List.replicate vms.length 0).zip vms)).2
    refine ⟨((-(overloadLoop now ((List.replicate vms.length 0).zip vms)).1)
        :: out.1, out.2), ?_⟩
    show (fitnessOne [] now a vms).bind _ = _
    rw [show fitnessOne [] now a vms
        = some (-(overloadLoop now ((List.replicate vms.length 0).zip vms)).1,
          (overloadLoop now ((List.replicate vms.length 0).zip vms)).2) from rfl,
      Option.some_bind, hout, Option.map_some']

theorem pco_sortedRefs_length (scores : List ℚ) (refs : List ℕ)
    (hs : scores.length = refs.length) :
    ((pco_sorted_pairs scores refs).map Prod.snd).length = refs.length := by
  rw [List.length_map]
  unfold pco_sorted_pairs
  rw [List.length_mergeSort, List.length_zip, hs, Nat.min_self]

theorem pco_update_population_none_of_nil (scores : List ℚ)
    (pool : List (List ℤ)) (refs : List ℕ) (nVms : ℕ) (g : ℕ → ℕ) (k : ℕ)
    (hpool : ∀ c ∈ pool, c = ([] : List ℤ))
    (hs : scores.length = refs.length) (hr : 2 ≤ refs.length) :
    pco_update_population scores pool refs nVms g k = none := by
  unfold pco_update_population
  dsimp only
  have hsl := pco_sortedRefs_length scores refs hs
  have htoplen : (((pco_sorted_pairs scores refs).map Prod.snd).take
      (((pco_sorted_pairs scores refs).map Prod.snd).length / 2)).length
      = refs.length / 2 := by
    rw [List.length_take, hsl]
    omega
  have hfuel : refs.length - (((pco_sorted_pairs scores refs).map Prod.snd).take
      (((pco_sorted_pairs scores refs).map Prod.snd).length / 2)).length
      = (refs.length - refs.length / 2 - 1) + 1 := by
    rw [htoplen]
    omega
  rw [hfuel]
  simp only [pcoRegen]
  rw [if_neg (by rw [htoplen]; omega)]
  have hparent : pool.getD
      ((((pco_sorted_pairs scores refs).map Prod.snd).take
        (((pco_sorted_pairs scores refs).map Prod.snd).length / 2)).getD
          (g k % (((pco_sorted_pairs scores refs).map Prod.snd).take
            (((pco_sorted_pairs scores refs).map Prod.snd).length / 2)).length) 0)
      [] = [] := by
    rcases getD_mem_or_default pool _ [] with hm | he
    · exact hpool _ hm
    · exact he
  rw [if_pos (Or.inl (by rw [hparent]; rfl))]

theorem pco_empty_tasks_none (np it : ℕ) (vms : List VM) (now : ℚ) (g : ℕ → ℕ)
    (hnp : 2 ≤ np) (hit : 1 ≤ it) (hvms : vms ≠ []) :
    pco_optimize np it [] vms now g = none := by
  have hnv : vms.length ≠ 0 := fun h => hvms (List.length_eq_zero.mp h)
  have hinit : pco_initialize_population g np (List.length ([] : List ℚ))
      vms.length = some ((List.range np).map fun _ => ([] : List ℤ)) := by
    unfold pco_initialize_population
    rw [if_neg hnv]
    simp [List.range_zero]
  unfold pco_optimize
  rw [hinit, Option.some_bind]
  obtain ⟨m, rfl⟩ : ∃ m, it = m + 1 := ⟨it - 1, by omega⟩
  simp only [pcoIterate]
  obtain ⟨sv, hsv⟩ := fitnessList_nil_tasks now
    (materialize ((List.range np).map fun _ => []) (List.range np)) vms
  rw [show pco_evaluate_fitness []
      now (materialize ((List.range np).map fun _ => []) (List.range np)) vms
      = fitnessList [] now
        (materialize ((List.range np).map fun _ => []) (List.range np)) vms
      from rfl, hsv, Option.some_bind]
  have hlen : sv.1.length = (List.range np).length := by
    have := fitnessList_length [] now _ _ sv hsv
    rwa [materialize, List.length_map] at this
  rw [pco_update_population_none_of_nil sv.1 _ _ vms.length g _
    (by intro c hc; simp only [List.mem_map] at hc; obtain ⟨p, _, rfl⟩ := hc; rfl)
    (by rw [hlen]) (by rw [List.length_range]; exact hnp)]
  rfl

theorem gwo_sorted_indices_length (scores : List ℚ) :
    (gwo_sorted_indices scores).length = scores.length := by
  unfold gwo_sorted_indices
  rw [List.length_reverse, List.length_mergeSort, List.length_range]

theorem gwoIterate_nil_tasks (nVms : ℕ) (r : ℕ → ℚ) (aMax : ℚ) (maxIter : ℕ)
    (now : ℚ) :
    ∀ (n it : ℕ) (pop : List (List ℤ)) (vms : List VM), 1 ≤ n →
      3 ≤ pop.length → (∀ c ∈ pop, c = ([] : List ℤ)) →
      ∃ s, gwoIterate [] now nVms r aMax maxIter n it pop vms = some s ∧
        (∀ c ∈ s.1, c = ([] : List ℤ)) := by
  intro n
  induction n with
  | zero => intro it pop vms h1; omega
  | succ n ih =>
    intro it pop vms _ h3 hnil
    obtain ⟨sv, hsv⟩ := fitnessList_nil_tasks now pop vms
    have hlen : sv.1.length = pop.length := fitnessList_length [] now pop vms sv hsv
    have hupd : gwo_update_population pop sv.1 nVms r
        (it * (6 * (pop.length + 1) * (List.length ([] : List ℚ) + 1)))
        (aMax * (1 - (it : ℚ) / (maxIter : ℚ)))
        = some ((List.range pop.length).map fun i =>
          gwoNewWolf r ((it * (6 * (pop.length + 1) * (List.length ([] : List ℚ) + 1)))
              + 6 * i * (pop.getD i []).length)
            (aMax * (1 - (it : ℚ) / (maxIter : ℚ)))
            (pop.getD ((gwo_sorted_indices sv.1).getD 0 0) [])
            (pop.getD ((gwo_sorted_indices sv.1).getD 1 0) [])
            (pop.getD ((gwo_sorted_indices sv.1).getD 2 0) [])
            (pop.getD i []) nVms) := by
      unfold gwo_update_population
      rw [if_neg (by rw [gwo_sorted_indices_length, hlen]; omega)]
    have hpop2nil : ∀ c ∈ ((List.range pop.length).map fun i =>
        gwoNewWolf r ((it * (6 * (pop.length + 1) * (List.length ([] : List ℚ) + 1)))
            + 6 * i * (pop.getD i []).length)
          (aMax * (1 - (it : ℚ) / (maxIter : ℚ)))
          (pop.getD ((gwo_sorted_indices sv.1).getD 0 0) [])
          (pop.getD ((gwo_sorted_indices sv.1).getD 1 0) [])
          (pop.getD ((gwo_sorted_indices sv.1).getD 2 0) [])
          (pop.getD i []) nVms), c = ([] : List ℤ) := by
      intro c hc
      simp only [List.mem_map] at hc
      obtain ⟨i, _, rfl⟩ := hc
      have hwolf : pop.getD i [] = [] := by
        rcases getD_mem_or_default pop i [] with hm | he
        · exact hnil _ hm
        · exact he
      unfold gwoNewWolf
      rw [hwolf]
      rfl
    by_cases hn : n = 0
    · subst hn
      refine ⟨((List.range pop.length).map fun i =>
        gwoNewWolf r ((it * (6 * (pop.length + 1) * (List.length ([] : List ℚ) + 1)))
            + 6 * i * (pop.getD i []).length)
          (aMax * (1 - (it : ℚ) / (maxIter : ℚ)))
          (pop.getD ((gwo_sorted_indices sv.1).getD 0 0) [])
          (pop.getD ((gwo_sorted_indices sv.1).getD 1 0) [])
          (pop.getD ((gwo_sorted_indices sv.1).getD 2 0) [])
          (pop.getD i []) nVms, sv.1, sv.2), ?_, hpop2nil⟩
      simp only [gwoIterate]
      rw [show gwo_evaluate_fitness [] now pop vms = fitnessList [] now pop vms
        from rfl, hsv, Option.some_bind, hupd, Option.some_bind]
      simp
    · obtain ⟨s, hs, hsnil⟩ := ih (it + 1) _ sv.2 (by omega)
        (by rw [List.length_map, List.length_range]; exact h3) hpop2nil
      refine ⟨s, ?_, hsnil⟩
      simp only [gwoIterate]
      rw [show gwo_evaluate_fitness [] now pop vms = fitnessList [] now pop vms
        from rfl, hsv, Option.some_bind, hupd, Option.some_bind, if_neg hn]
      exact hs

theorem gwo_empty_tasks_some_nil (nw it : ℕ) (aMax : ℚ) (vms : List VM)
    (now : ℚ) (g : ℕ → ℕ) (r : ℕ → ℚ) (hnw : 3 ≤ nw) (hit : 1 ≤ it)
    (hvms : vms ≠ []) :
    gwo_optimize nw it aMax [] vms now g r = some [] := by
  have hnv : vms.length ≠ 0 := fun h => hvms (List.length_eq_zero.mp h)
  have hinit : gwo_initialize_population g nw (List.length ([] : List ℚ))
      vms.length = some ((List.range nw).map fun _ => ([] : List ℤ)) := by
    unfold gwo_initialize_population
    rw [if_neg hnv]
    simp [List.range_zero]
  unfold gwo_optimize
  rw [hinit, Option.some_bind]
  obtain ⟨s, hs, hsnil⟩ := gwoIterate_nil_tasks vms.length r aMax it now it 0
    ((List.range nw).map fun _ => []) vms hit
    (by rw [List.length_map, List.length_range]; exact hnw)
    (by intro c hc; simp only [List.mem_map] at hc; obtain ⟨p, _, rfl⟩ := hc; rfl)
  rw [hs, Option.map_some']
  congr 1
  rcases getD_mem_or_default s.1 (argmaxQ s.2.1) [] with hm | he
  · exact hsnil _ hm
  · exact he

theorem psoLoop1_nil_bufs (inertia cog soc : ℚ) (r : ℕ → ℚ) (k0 gbRef nVms : ℕ) :
    ∀ (is : List ℕ) (st : PsoState), (∀ c ∈ st.bufs, c = ([] : List ℤ)) →
      ∀ c ∈ (psoLoop1 inertia cog soc r k0 gbRef nVms is st).bufs, c = [] := by
  intro is
  induction is with
  | nil => intro st h; exact h
  | cons i rest ih =>
    intro st h
    simp only [psoLoop1]
    apply ih
    intro c hc
    simp only [psoStep] at hc
    have hxi : st.bufs.getD (st.popRefs.getD i 0) [] = [] := by
      rcases getD_mem_or_default st.bufs (st.popRefs.getD i 0) [] with hm | he
      · exact h _ hm
      · exact he
    rcases List.mem_append.mp hc with hc1 | hc2
    · rcases List.mem_or_eq_of_mem_set hc1 with hcm | rfl
      · exact h _ hcm
      · rw [hxi]
        rfl
    · rcases List.mem_singleton.mp hc2 with rfl
      rw [hxi]
      rfl

theorem psoLoop2_nil_tasks (now : ℚ) (scores : List ℚ) :
    ∀ (is : List ℕ) (st : PsoState) (vms : List VM),
      ∃ out, psoLoop2 [] now scores is st vms = some out := by
  intro is
  induction is with
  | nil => intro st vms; exact ⟨(st, vms), rfl⟩
  | cons i rest ih =>
    intro st vms
    obtain ⟨sv, hsv⟩ := fitnessList_nil_tasks now
      [st.bufs.getD (st.bestRefs.getD i 0) []] vms
    simp only [psoLoop2]
    rw [show pso_evaluate_fitness [] now
        [st.bufs.getD (st.bestRefs.getD i 0) []] vms
        = fitnessList [] now [st.bufs.getD (st.bestRefs.getD i 0) []] vms
        from rfl, hsv, Option.some_bind]
    exact ih _ sv.2

theorem pso_update_population_nil_tasks (scores : List ℚ) (st : PsoState)
    (nVms : ℕ) (inertia cog soc : ℚ) (r : ℕ → ℚ) (k0 : ℕ) (now : ℚ)
    (vms : List VM) (hpop : st.popRefs ≠ [])
    (hscoreslen : scores.length = st.popRefs.length)
    (hbufs : ∀ c ∈ st.bufs, c = ([] : List ℤ)) :
    ∃ out, pso_update_population scores st nVms inertia cog soc r k0 [] now vms
        = some out ∧ (∀ c ∈ out.1.bufs, c = ([] : List ℤ)) ∧
      out.1.popRefs.length = st.popRefs.length := by
  unfold pso_update_population
  have hzip : scores.zip st.popRefs ≠ [] := by
    intro hz
    have := congrArg List.length hz
    rw [List.length_zip, hscoreslen, Nat.min_self] at this
    exact hpop (List.length_eq_zero.mp this)
  cases hgb : py_max_by_fst (scores.zip st.popRefs) with
  | none => exact absurd ((py_max_by_fst_eq_none _).mp hgb) hzip
  | some gb =>
    simp only [Option.some_bind]
    obtain ⟨out, hout⟩ := psoLoop2_nil_tasks now scores
      (List.range (psoLoop1 inertia cog soc r k0 gb.2 nVms
        (List.range st.popRefs.length) st).popRefs.length)
      (psoLoop1 inertia cog soc r k0 gb.2 nVms
        (List.range st.popRefs.length) st) vms
    have h2 := psoLoop2_popRefs [] now scores _ _ vms out hout
    refine ⟨out, hout, ?_, ?_⟩
    · rw [h2.2]
      exact psoLoop1_nil_bufs inertia cog soc r k0 gb.2 nVms _ st hbufs
    · rw [h2.1, psoLoop1_popRefs_length]

theorem psoIterate_nil_tasks (nVms : ℕ) (inertia cog soc : ℚ) (r : ℕ → ℚ)
    (now : ℚ) :
    ∀ (n it : ℕ) (st : PsoState) (vms : List VM), 1 ≤ n →
      1 ≤ st.popRefs.length → (∀ c ∈ st.bufs, c = ([] : List ℤ)) →
      ∃ s, psoIterate [] now nVms inertia cog soc r n it st vms = some s ∧
        (∀ c ∈ s.1.bufs, c = ([] : List ℤ)) ∧
        s.1.popRefs.length = st.popRefs.length := by
  intro n
  induction n with
  | zero => intro it st vms h; omega
  | succ n ih =>
    intro it st vms _ hl hb
    obtain ⟨sv, hsv⟩ := fitnessList_nil_tasks now
      (materialize st.bufs st.popRefs) vms
    have hsvlen : sv.1.length = st.popRefs.length := by
      have := fitnessList_length [] now _ _ sv hsv
      rwa [materialize, List.length_map] at this
    obtain ⟨out, hout, houtnil, houtlen⟩ := pso_update_population_nil_tasks
      sv.1 st nVms inertia cog soc r
      (it * (2 * (st.popRefs.length + 1) * (List.length ([] : List ℚ) + 1)))
      now sv.2
      (by intro hz; rw [hz] at hl; simp at hl) hsvlen hb
    by_cases hn : n = 0
    · subst hn
      refine ⟨(out.1, sv.1, out.2), ?_, houtnil, houtlen⟩
      simp only [psoIterate]
      rw [show pso_evaluate_fitness [] now (materialize st.bufs st.popRefs) vms
          = fitnessList [] now (materialize st.bufs st.popRefs) vms from rfl,
        hsv, Option.some_bind, hout, Option.some_bind]
      simp
    · obtain ⟨s, hs, hsnil, hslen⟩ := ih (it + 1) out.1 out.2 (by omega)
        (by rw [houtlen]; exact hl) houtnil
      refine ⟨s, ?_, hsnil, by rw [hslen, houtlen]⟩
      simp only [psoIterate]
      rw [show pso_evaluate_fitness [] now (materialize st.bufs st.popRefs) vms
          = fitnessList [] now (materialize st.bufs st.popRefs) vms from rfl,
        hsv, Option.some_bind, hout, Option.some_bind, if_neg hn]
      exact hs

theorem pso_empty_tasks_some_nil (np it : ℕ) (inertia cog soc : ℚ)
    (vms : List VM) (now : ℚ) (g : ℕ → ℕ) (r : ℕ → ℚ) (hnp : 1 ≤ np)
    (hit : 1 ≤ it) (hvms : vms ≠ []) :
    pso_optimize np it inertia cog soc [] vms now g r = some [] := by
  have hnv : vms.length ≠ 0 := fun h => hvms (List.length_eq_zero.mp h)
  unfold pso_optimize pso_initialize_population
  rw [if_neg hnv]
  simp only [Option.some_bind]
  obtain ⟨s, hs, hsnil, hslen⟩ := psoIterate_nil_tasks vms.length inertia cog
    soc r now it 0
    ⟨(List.range np).map fun p =>
        (List.range (List.length ([] : List ℚ))).map fun j =>
          ((g (p * (List.length ([] : List ℚ)) + j) % vms.length : ℕ) : ℤ),
      List.range np, List.range np,
      List.replicate np (List.replicate (List.length ([] : List ℚ)) 0)⟩ vms hit
    (by simpa using hnp)
    (by
      intro c hc
      simp only [List.mem_map] at hc
      obtain ⟨p, _, rfl⟩ := hc
      rfl)
  rw [hs, Option.map_some']
  congr 1
  rcases getD_mem_or_default (materialize s.1.bufs s.1.popRefs)
      (argmaxQ s.2.1) [] with hm | he
  · simp only [materialize, List.mem_map] at hm
    obtain ⟨rf, _, heq⟩ := hm
    simp only [materialize]
    rw [← heq]
    rcases getD_mem_or_default s.1.bufs rf [] with hbm | hbe
    · exact hsnil _ hbm
    · exact hbe
  · exact he

/-- C9 amended: with an empty task batch, GWO and PSO return an empty mapping
without raising (given the configured population sizes and at least one
iteration), but PCO raises: its regeneration calls
`np.random.randint(len(parent))` on a zero-length parent, a `ValueError`,
whenever it has offspring to regenerate (`num_plants ≥ 2`). -/
theorem c9_empty_batch_amended :
    (∀ (np it : ℕ) (vms : List VM) (now : ℚ) (g : ℕ → ℕ), 2 ≤ np → 1 ≤ it →
        vms ≠ [] → pco_optimize np it [] vms now g = none) ∧
    (∀ (nw it : ℕ) (aMax : ℚ) (vms : List VM) (now : ℚ) (g : ℕ → ℕ)
        (r : ℕ → ℚ), 3 ≤ nw → 1 ≤ it → vms ≠ [] →
        gwo_optimize nw it aMax [] vms now g r = some []) ∧
    (∀ (np it : ℕ) (inertia cog soc : ℚ) (vms : List VM) (now : ℚ)
        (g : ℕ → ℕ) (r : ℕ → ℚ), 1 ≤ np → 1 ≤ it → vms ≠ [] →
        pso_optimize np it inertia cog soc [] vms now g r = some []) :=
  ⟨fun np it vms now g h1 h2 h3 => pco_empty_tasks_none np it vms now g h1 h2 h3,
   fun nw it aMax vms now g r h1 h2 h3 =>
     gwo_empty_tasks_some_nil nw it aMax vms now g r h1 h2 h3,
   fun np it inertia cog soc vms now g r h1 h2 h3 =>
     pso_empty_tasks_some_nil np it inertia cog soc vms now g r h1 h2 h3⟩

theorem c9_empty_batch_amended_witness :
    gwo_optimize 3 1 2 [] [vmW] 5 (fun _ => 0) (fun _ => 0) = some [] :=
  c9_empty_batch_amended.2.1 3 1 2 [vmW] 5 (fun _ => 0) (fun _ => 0)
    (le_refl 3) (le_refl 1) (by simp)

/-- C9 counterexample: with an empty batch, PCO's `optimize` does not return
an empty mapping — it fails (`np.random.randint(0)` raises `ValueError`
inside `update_population`), refuting the claim that every variant returns
an empty mapping without raising. -/
theorem c9_empty_batch_counterexample :
    pco_optimize 2 1 [] [vmW] 5 (fun _ => 0) = none ∧
      ¬ pco_optimize 2 1 [] [vmW] 5 (fun _ => 0) = some [] := by
  have h := pco_empty_tasks_none 2 1 [vmW] 5 (fun _ => 0) (le_refl 2)
    (le_refl 1) (by simp)
  exact ⟨h, by rw [h]; simp⟩

/-- Model of `TaskQueue.read_file` (task_queue.py, lines 35-52).  A line is
`none` when `float(line)` raises `ValueError` (non-numeric), else
`some value`.  Non-numeric lines are skipped and counted as printed warnings;
numeric lines are kept as `value/100` only when `value > 0` — non-positive
values are skipped silently.  Returns (kept values, warning count). -/
def read_file : List (Option ℚ) → List ℚ × ℕ
  | [] => ([], 0)
  | none :: rest =>
    let rr := read_file rest
    (rr.1, rr.2 + 1)
  | some v :: rest =>
    let rr := read_file rest
    (if v > 0 then v / 100 :: rr.1 else rr.1, rr.2)

/-- Model of `TaskQueue.load_tasks`: one entry per file, in directory order,
keeping only files whose parsed task list is non-empty
(`if file_tasks: self.work_load[file_name] = file_tasks`). -/
def load_tasks (files : List (String × List (Option ℚ))) :
    List (String × List ℚ) :=
  files.foldr
    (fun f acc =>
      if (read_file f.2).1 ≠ [] then (f.1, (read_file f.2).1) :: acc else acc)
    []

/-- Slices `rows[i:i+b]` for `i in range(0, len(rows), b)`; only used with
`b ≥ 1` (`range` with step 0 raises, handled by the caller). -/
def chunkList (b : ℕ) (l : List ℚ) : List (List ℚ) :=
  if b = 0 then []
  else if l = [] then []
  else l.take b :: chunkList b (l.drop b)
termination_by l.length
decreasing_by
  rename_i hb hl
  have : l.length ≠ 0 := fun h => hl (List.length_eq_zero.mp h)
  simp only [List.length_drop]
  omega

/-- Model of `TaskQueue.stream_work_load` (task_queue.py, lines 54-69):
yields `(file_name, rows)` whole when no batch size is given, otherwise the
size-`b` slices of each file in order; a zero batch size raises (`range`
step 0). -/
def stream_work_load (batch : Option ℕ) (wl : List (String × List ℚ)) :
    Option (List (String × List ℚ)) :=
  match batch with
  | none => some wl
  | some b =>
    if b = 0 then none
    else some (wl.flatMap fun f => (chunkList b f.2).map fun c => (f.1, c))

theorem read_file_pos :
    ∀ (lines : List (Option ℚ)) (v : ℚ), v ∈ (read_file lines).1 → 0 < v := by
  intro lines
  induction lines with
  | nil => intro v hv; cases hv
  | cons a rest ih =>
    intro v hv
    cases a with
    | none => exact ih v hv
    | some w =>
      simp only [read_file] at hv
      by_cases hw : w > 0
      · rw [if_pos hw] at hv
        rcases List.mem_cons.mp hv with rfl | hv'
        · positivity
        · exact ih v hv'
      · rw [if_neg hw] at hv
        exact ih v hv

theorem chunkList_mem (b : ℕ) :
    ∀ (l : List ℚ) (c : List ℚ), c ∈ chunkList b l → ∀ v ∈ c, v ∈ l := by
  have main : ∀ (n : ℕ) (l : List ℚ), l.length ≤ n →
      ∀ c ∈ chunkList b l, ∀ v ∈ c, v ∈ l := by
    intro n
    induction n with
    | zero =>
      intro l hl c hc v hv
      have hnil : l = [] := List.length_eq_zero.mp (Nat.le_zero.mp hl)
      subst hnil
      rw [chunkList] at hc
      by_cases hb : b = 0
      · rw [if_pos hb] at hc; cases hc
      · rw [if_neg hb, if_pos rfl] at hc; cases hc
    | succ n ih =>
      intro l hl c hc v hv
      rw [chunkList] at hc
      by_cases hb : b = 0
      · rw [if_pos hb] at hc; cases hc
      · rw [if_neg hb] at hc
        by_cases hle : l = []
        · rw [if_pos hle] at hc; cases hc
        · rw [if_neg hle] at hc
          rcases List.mem_cons.mp hc with rfl | hc2
          · exact List.mem_of_mem_take hv
          · have hlen : (l.drop b).length ≤ n := by
              have hz : l.length ≠ 0 := fun h => hle (List.length_eq_zero.mp h)
              simp only [List.length_drop]
              omega
            exact List.mem_of_mem_drop (ih (l.drop b) hlen c hc2 v hv)
  exact fun l => main l.length l (le_refl _)

theorem load_tasks_mem (files : List (String × List (Option ℚ))) :
    ∀ p ∈ load_tasks files, ∃ f ∈ files, p.2 = (read_file f.2).1 := by
  induction files with
  | nil => intro p hp; cases hp
  | cons f rest ih =>
    intro p hp
    simp only [load_tasks, List.foldr_cons] at hp
    by_cases hne : (read_file f.2).1 ≠ []
    · rw [if_pos hne] at hp
      rcases List.mem_cons.mp hp with rfl | hp'
      · exact ⟨f, List.mem_cons_self _ _, rfl⟩
      · obtain ⟨f', hf', he⟩ := ih p hp'
        exact ⟨f', List.mem_cons_of_mem _ hf', he⟩
    · rw [if_neg hne] at hp
      obtain ⟨f', hf', he⟩ := ih p hp
      exact ⟨f', List.mem_cons_of_mem _ hf', he⟩

theorem stream_work_load_pos (batch : Option ℕ)
    (files : List (String × List (Option ℚ)))
    (out : List (String × List ℚ))
    (h : stream_work_load batch (load_tasks files) = some out) :
    ∀ p ∈ out, ∀ v ∈ p.2, 0 < v := by
  intro p hp v hv
  cases batch with
  | none =>
    simp only [stream_work_load, Option.some.injEq] at h
    subst h
    obtain ⟨f, _, he⟩ := load_tasks_mem files p hp
    exact read_file_pos f.2 v (he ▸ hv)
  | some b =>
    simp only [stream_work_load] at h
    by_cases hb : b = 0
    · rw [if_pos hb] at h; cases h
    · rw [if_neg hb] at h
      simp only [Option.some.injEq] at h
      subst h
      simp only [List.mem_flatMap, List.mem_map] at hp
      obtain ⟨f, hf, c, hc, rfl⟩ := hp
      obtain ⟨f', _, he⟩ := load_tasks_mem files f hf
      exact read_file_pos f'.2 v (he ▸ chunkList_mem b f.2 c hc v hv)

/-- C7 counterexample: an input value of 250 is yielded as 2.5, outside
`(0, 1]`, and a non-positive numeric line (-3) is skipped with NO warning
surfaced (the warning counter stays 0). -/
theorem c7_fraction_counterexample :
    read_file [some 250] = ([5/2], 0) ∧ ¬ ((5 : ℚ)/2 ≤ 1) ∧
      read_file [some (-3)] = ([], 0) := by
  refine ⟨?_, by norm_num, ?_⟩ <;> norm_num [read_file]

/-- C7 amended: every fraction yielded by the task stream is strictly
positive (it is `value/100`, which exceeds 1 when the input exceeds 100);
a non-numeric line is skipped and surfaces a warning, while a non-positive
numeric line is skipped silently; the remaining valid values flow through. -/
theorem c7_stream_amended :
    (∀ (lines : List (Option ℚ)) (v : ℚ), v ∈ (read_file lines).1 → 0 < v) ∧
    (∀ (rest : List (Option ℚ)),
      read_file (none :: rest) = ((read_file rest).1, (read_file rest).2 + 1)) ∧
    (∀ (v : ℚ) (rest : List (Option ℚ)), v ≤ 0 →
      read_file (some v :: rest) = read_file rest) ∧
    (∀ (v : ℚ) (rest : List (Option ℚ)), 0 < v →
      read_file (some v :: rest)
        = (v / 100 :: (read_file rest).1, (read_file rest).2)) ∧
    (∀ (batch : Option ℕ) (files : List (String × List (Option ℚ)))
      (out : List (String × List ℚ)),
      stream_work_load batch (load_tasks files) = some out →
      ∀ p ∈ out, ∀ v ∈ p.2, 0 < v) := by
  refine ⟨read_file_pos, fun rest => rfl, ?_, ?_, stream_work_load_pos⟩
  · intro v rest hv
    simp only [read_file]
    rw [if_neg (not_lt.mpr hv)]
  · intro v rest hv
    simp only [read_file]
    rw [if_pos hv]

theorem c7_stream_amended_witness : (0 : ℚ) < 1/2 :=
  c7_stream_amended.1 [some 50] (1/2) (by norm_num [read_file])

/-- Variant of `pco_optimize` that also surfaces the VM states mutated by the
embedded `free_cpu_percent()` reads (the Python optimizer works on the live
`self.vms` objects); `pco_optimize` is its first projection. -/
def pco_optimize_st (num_plants iterations : ℕ) (tasks : List ℚ)
    (vms : List VM) (now : ℚ) (g : ℕ → ℕ) : Option (List ℤ × List VM) :=
  (pco_initialize_population g num_plants tasks.length vms.length).bind fun pool =>
    (pcoIterate tasks now vms.length g iterations (num_plants * tasks.length)
      pool (List.range num_plants) vms).map fun s =>
      ((materialize s.1 s.2.1).getD (argmaxQ s.2.2.1) [], s.2.2.2)

/-- Stateful variant of `gwo_optimize`, with the mutated VM states. -/
def gwo_optimize_st (num_wolves iterations : ℕ) (aMax : ℚ) (tasks : List ℚ)
    (vms : List VM) (now : ℚ) (g : ℕ → ℕ) (r : ℕ → ℚ) :
    Option (List ℤ × List VM) :=
  (gwo_initialize_population g num_wolves tasks.length vms.length).bind fun pop =>
    (gwoIterate tasks now vms.length r aMax iterations iterations 0 pop vms).map
      fun s => (s.1.getD (argmaxQ s.2.1) [], s.2.2)

/-- Stateful variant of `pso_optimize`, with the mutated VM states. -/
def pso_optimize_st (num_particles iterations : ℕ) (inertia cog soc : ℚ)
    (tasks : List ℚ) (vms : List VM) (now : ℚ) (g : ℕ → ℕ) (r : ℕ → ℚ) :
    Option (List ℤ × List VM) :=
  (pso_initialize_population g num_particles tasks.length vms.length).bind
    fun st =>
      (psoIterate tasks now vms.length inertia cog soc r iterations 0 st
          vms).map fun s =>
        ((materialize s.1.bufs s.1.popRefs).getD (argmaxQ s.2.1) [], s.2.2)

theorem pco_optimize_st_fst (num_plants iterations : ℕ) (tasks : List ℚ)
    (vms : List VM) (now : ℚ) (g : ℕ → ℕ) :
    pco_optimize num_plants iterations tasks vms now g
      = (pco_optimize_st num_plants iterations tasks vms now g).map Prod.fst := by
  unfold pco_optimize pco_optimize_st
  cases pco_initialize_population g num_plants tasks.length vms.length with
  | none => rfl
  | some pool =>
    simp only [Option.some_bind]
    cases pcoIterate tasks now vms.length g iterations
        (num_plants * tasks.length) pool (List.range num_plants) vms with
    | none => rfl
    | some s => rfl

theorem gwo_optimize_st_fst (num_wolves iterations : ℕ) (aMax : ℚ)
    (tasks : List ℚ) (vms : List VM) (now : ℚ) (g : ℕ → ℕ) (r : ℕ → ℚ) :
    gwo_optimize num_wolves iterations aMax tasks vms now g r
      = (gwo_optimize_st num_wolves iterations aMax tasks vms now g r).map
          Prod.fst := by
  unfold gwo_optimize gwo_optimize_st
  cases gwo_initialize_population g num_wolves tasks.length vms.length with
  | none => rfl
  | some pop =>
    simp only [Option.some_bind]
    cases gwoIterate tasks now vms.length r aMax iterations iterations 0 pop vms with
    | none => rfl
    | some s => rfl

theorem pso_optimize_st_fst (num_particles iterations : ℕ) (inertia cog soc : ℚ)
    (tasks : List ℚ) (vms : List VM) (now : ℚ) (g : ℕ → ℕ) (r : ℕ → ℚ) :
    pso_optimize num_particles iterations inertia cog soc tasks vms now g r
      = (pso_optimize_st num_particles iterations inertia cog soc tasks vms now
          g r).map Prod.fst := by
  unfold pso_optimize pso_optimize_st
  cases pso_initialize_population g num_particles tasks.length vms.length with
  | none => rfl
  | some st =>
    simp only [Option.some_bind]
    cases psoIterate tasks now vms.length inertia cog soc r iterations 0 st vms with
    | none => rfl
    | some s => rfl

/-- Configuration carried by `LoadBalancer` (`algorithm_config` plus
`conf["task_queue"]["cpu_utilization_period"]`). -/
structure LBConfig where
  pco_num_plants : ℕ
  pco_iterations : ℕ
  pco_batch : ℕ
  gwo_num_wolves : ℕ
  gwo_iterations : ℕ
  gwo_a_max : ℚ
  gwo_batch : ℕ
  pso_num_particles : ℕ
  pso_iterations : ℕ
  pso_inertia : ℚ
  pso_cognitive : ℚ
  pso_social : ℚ
  pso_batch : ℕ
  cpu_utilization_period : ℚ
deriving Repr

/-- The keys of `self.algorithms` in `LoadBalancer.__init__`. -/
def knownAlgorithms : List String := ["PCO", "PSO", "GWO"]

def batch_size_of (cfg : LBConfig) (name : String) : ℕ :=
  if name = "PCO" then cfg.pco_batch
  else if name = "PSO" then cfg.pso_batch
  else cfg.gwo_batch

/-- `algorithm = self.algorithms[algorithm_name]; algorithm.optimize(...)`. -/
def runAlgorithm (cfg : LBConfig) (name : String) (tasks : List ℚ)
    (vms : List VM) (now : ℚ) (g : ℕ → ℕ) (r : ℕ → ℚ) :
    Option (List ℤ × List VM) :=
  if name = "PCO" then
    pco_optimize_st cfg.pco_num_plants cfg.pco_iterations tasks vms now g
  else if name = "PSO" then
    pso_optimize_st cfg.pso_num_particles cfg.pso_iterations cfg.pso_inertia
      cfg.pso_cognitive cfg.pso_social tasks vms now g r
  else if name = "GWO" then
    gwo_optimize_st cfg.gwo_num_wolves cfg.gwo_iterations cfg.gwo_a_max tasks
      vms now g r
  else none

def defaultVM : VM := ⟨0, 0, 0, 0, 0, [], 0⟩

/-- The allocation loop of `balance_load` (load_balancer.py, lines 169-177):
`for task_cpu, vm_idx in zip(tasks, best_allocation)`, create a task with the
configured `cpu_utilization_period`, index `self.vms[vm_idx]` (Python
indexing: `none` = `IndexError`), allocate, and count a failed allocation as
one SLA violation — the loop always continues.  The task-id counter models
`Task.task_counter`. -/
def processTasks (now period : ℚ) :
    List (ℚ × ℤ) → List VM → ℕ → ℕ → Option (List VM × ℕ × ℕ)
  | [], vms, sla, counter => some (vms, sla, counter)
  | p :: rest, vms, sla, counter =>
    match pyIdx vms.length p.2 with
    | none => none
    | some j =>
      let task := Task.make (counter + 1) now p.1 0 period
      let res := (vms.getD j defaultVM).allocate_task now task
      processTasks now period rest (vms.set j res.2)
        (if res.1 then sla else sla + 1) (counter + 1)

/-- The batch loop of `balance_load` (load_balancer.py, lines 160-185):
per batch, run the optimizer (a raised exception propagates: `none`), then
allocate task by task.  The accumulators are the VM states, the SLA-violation
count, `loop_count`, the task-id counter and `len(all_tasks)`.  Each batch
uses a fresh random stream (`g loop_count` / `r loop_count`). -/
def balanceBatches (cfg : LBConfig) (name : String) (now : ℚ)
    (g : ℕ → ℕ → ℕ) (r : ℕ → ℕ → ℚ) :
    List (String × List ℚ) → List VM → ℕ → ℕ → ℕ → ℕ →
    Option (List VM × ℕ × ℕ × ℕ × ℕ)
  | [], vms, sla, loopc, counter, total => some (vms, sla, loopc, counter, total)
  | batch :: rest, vms, sla, loopc, counter, total =>
    (runAlgorithm cfg name batch.2 vms now (g loopc) (r loopc)).bind fun ores =>
      (processTasks now cfg.cpu_utilization_period (batch.2.zip ores.1) ores.2
          sla counter).bind fun pres =>
        balanceBatches cfg name now g r rest pres.1 pres.2.1 (loopc + 1)
          pres.2.2 (total + batch.2.length)

structure Metrics where
  makespan : ℚ
  sla_violation : ℕ
  sla_violation_percent : ℚ
  cpu_utilization : ℚ
  tasks_executed : ℕ
  energy_consumption : ℚ
deriving Repr

def ENERGY_COEFFICIENT : ℚ := 6/5

/-- `sum(vm.cpu_usage_percent() for vm in vm_list)` — each read purges. -/
def sumCpuUsage (now : ℚ) : List VM → ℚ × List VM
  | [] => (0, [])
  | vm :: rest =>
    let u := vm.cpu_usage_percent now
    let rr := sumCpuUsage now rest
    (u.1 + rr.1, u.2 :: rr.2)

/-- Model of `LoadBalancer.calculate_metrics` (load_balancer.py, lines 70-102):
`max()` over the VM makespans raises on an empty VM list, and
`sla_failed_count/total_tasks` raises `ZeroDivisionError` when no task was
processed.  Wall-clock durations are not modelled (they decide nothing). -/
def calculate_metrics (now : ℚ) (total_tasks : ℕ) (vms : List VM) (sla : ℕ) :
    Except String (Metrics × List VM) :=
  match vms with
  | [] => Except.error "max of empty sequence"
  | v0 :: vrest =>
    let makespan := (vrest.map VM.calculate_makespan).foldl max
      v0.calculate_makespan
    let usage := sumCpuUsage now (v0 :: vrest)
    let cpu_utilization := usage.1 / (((v0 :: vrest).length : ℕ) : ℚ)
    if total_tasks = 0 then Except.error "division by zero"
    else Except.ok
      ({ makespan := makespan, sla_violation := sla,
         sla_violation_percent := ((sla : ℚ) / (total_tasks : ℚ)) * 100,
         cpu_utilization := cpu_utilization,
         tasks_executed := total_tasks,
         energy_consumption := cpu_utilization * ENERGY_COEFFICIENT }, usage.2)

/-- Model of `LoadBalancer.balance_load` (load_balancer.py, lines 141-188):
an unknown algorithm name raises before any batch; a zero batch size makes
the stream raise; an exception inside a batch propagates; after the loop,
`avg_loop_time = (end-start)/loop_count` raises `ZeroDivisionError` when no
batch was processed, and `calculate_metrics` follows. -/
def balance_load (cfg : LBConfig) (name : String)
    (workload : List (String × List ℚ)) (vms : List VM) (now : ℚ)
    (g : ℕ → ℕ → ℕ) (r : ℕ → ℕ → ℚ) : Except String (Metrics × List VM × ℕ) :=
  if name ∉ knownAlgorithms then Except.error "algorithm not found"
  else
    match stream_work_load (some (batch_size_of cfg name)) workload with
    | none => Except.error "range step must not be zero"
    | some batches =>
      match balanceBatches cfg name now g r batches vms 0 0 0 0 with
      | none => Except.error "batch processing raised"
      | some st =>
        if st.2.2.1 = 0 then Except.error "division by zero"
        else
          match calculate_metrics now st.2.2.2.2 st.1 st.2.1 with
          | Except.error e => Except.error e
          | Except.ok m => Except.ok (m.1, m.2, st.2.1)

theorem balance_load_empty_workload (cfg : LBConfig) (name : String)
    (vms : List VM) (now : ℚ) (g : ℕ → ℕ → ℕ) (r : ℕ → ℕ → ℚ)
    (hname : name ∈ knownAlgorithms) (hb : batch_size_of cfg name ≠ 0) :
    balance_load cfg name [] vms now g r = Except.error "division by zero" := by
  unfold balance_load
  rw [if_neg (not_not_intro hname)]
  rw [show stream_work_load (some (batch_size_of cfg name)) [] = some [] from by
    simp only [stream_work_load]
    rw [if_neg hb]
    rfl]
  rfl

/-- C5 counterexample: "GWO" is a configured algorithm, yet `balance_load`
raises for it — with an empty workload the loop body never runs and the
trailing `avg_loop_time = (end_time-self.start_time) / loop_count` divides
by zero. -/
theorem c5_known_name_raises_counterexample :
    ("GWO" ∈ knownAlgorithms) ∧
      balance_load ⟨4, 1, 5, 3, 1, 2, 5, 4, 1, 1/2, 3/2, 3/2, 5, 10⟩ "GWO" []
        [vmW] 5 (fun _ _ => 0) (fun _ _ => 0)
        = Except.error "division by zero" :=
  ⟨by simp [knownAlgorithms],
   balance_load_empty_workload _ "GWO" [vmW] 5 _ _ (by simp [knownAlgorithms])
     (by norm_num [batch_size_of])⟩

/-- C5 amended: an unknown algorithm name aborts `balance_load` before any
batch; a known name does not guarantee completion — with an empty workload
the final averaging divides by zero and the call raises after processing no
batch; and an individual allocation failure never aborts: the per-batch task
loop always completes when the optimizer's VM indices are valid, adding at
most one SLA violation per task. -/
theorem c5_failure_semantics_amended :
    (∀ (cfg : LBConfig) (name : String) (workload : List (String × List ℚ))
        (vms : List VM) (now : ℚ) (g : ℕ → ℕ → ℕ) (r : ℕ → ℕ → ℚ),
        name ∉ knownAlgorithms →
        balance_load cfg name workload vms now g r
          = Except.error "algorithm not found") ∧
    (∀ (cfg : LBConfig) (name : String) (vms : List VM) (now : ℚ)
        (g : ℕ → ℕ → ℕ) (r : ℕ → ℕ → ℚ), name ∈ knownAlgorithms →
        batch_size_of cfg name ≠ 0 →
        balance_load cfg name [] vms now g r
          = Except.error "division by zero") ∧
    (∀ (now period : ℚ) (pairs : List (ℚ × ℤ)) (vms : List VM)
        (sla counter : ℕ),
        (∀ p ∈ pairs, ∃ j, pyIdx vms.length p.2 = some j) →
        ∃ res, processTasks now period pairs vms sla counter = some res ∧
          sla ≤ res.2.1 ∧ res.2.1 ≤ sla + pairs.length) := by
  refine ⟨?_, balance_load_empty_workload, ?_⟩
  · intro cfg name workload vms now g r hname
    unfold balance_load
    rw [if_pos hname]
  · intro now period pairs
    induction pairs with
    | nil =>
      intro vms sla counter _
      exact ⟨(vms, sla, counter), rfl, le_refl _, by simp⟩
    | cons p rest ih =>
      intro vms sla counter hidx
      obtain ⟨j, hj⟩ := hidx p (List.mem_cons_self _ _)
      simp only [processTasks]
      rw [hj]
      obtain ⟨res, hres, h1, h2⟩ := ih
        (vms.set j ((vms.getD j defaultVM).allocate_task now
          (Task.make (counter + 1) now p.1 0 period)).2)
        (if ((vms.getD j defaultVM).allocate_task now
          (Task.make (counter + 1) now p.1 0 period)).1 then sla else sla + 1)
        (counter + 1)
        (by
          intro q hq
          rw [List.length_set]
          exact hidx q (List.mem_cons_of_mem _ hq))
      refine ⟨res, hres, ?_, ?_⟩
      · refine le_trans ?_ h1
        split <;> omega
      · refine le_trans h2 ?_
        simp only [List.length_cons]
        split <;> omega

theorem c5_failure_semantics_amended_witness :
    (processTasks 5 10 [(1/2, 0)] [vmW] 0 0).isSome = true := by
  obtain ⟨res, hres, h1, h2⟩ := c5_failure_semantics_amended.2.2 5 10
    [(1/2, 0)] [vmW] 0 0
    (by
      intro p hp
      rcases List.mem_singleton.mp hp with rfl
      exact ⟨0, rfl⟩)
  rw [hres]
  rfl

end LBM
